import Mathlib

/-!
# structlog: the reference backend's rendering algorithm

A shallow embedding of `structlog.go` (package `structlog`): the classification
pass `flatten`, the text conversion `toString`, `stdLogger.Log` with its
encode-and-retry loop, the constructor `StdLogger` and the adapter `LoggerFunc`.
The two library calls the file makes, `kv.Flatten` and `logfmt.MarshalKeyvals`,
belong to other packages and are parameters of the embedding (`kvFlatten`, `enc`).

Go values of type `interface{}` are the type `Value`.  A Go panic (a failed type
assertion, an index or a slice bound out of range, a panic inside `String()`) is the
result `none`.
-/

set_option autoImplicit false

namespace Structlog

/-- A Go value of type `interface{}`, by what the type switches of the package can
observe of it.  `str` is a value of dynamic type `string`; `stringer` is a value of
another type that implements `fmt.Stringer`, with the text its `String()` returns,
`none` when the call of `String()` panics (as on a nil pointer), and with its
`fmt.Sprintf("%v", v)` rendering; `int` is an integer; `other` is any remaining value,
with its `fmt.Sprintf("%v", v)` rendering and whether the key=value encoder supports
its type (an open file handle such as `os.Stderr` is `other _ false`). -/
inductive Value where
  | str (s : String)
  | stringer (rendered : Option String) (sprint : String)
  | int (n : Int)
  | other (sprint : String) (supported : Bool)
  deriving DecidableEq, Repr

/-- The `fmt.Sprintf("%v", v)` rendering of a value. -/
def sprintV : Value → String
  | Value.str s => s
  | Value.stringer _ sprint => sprint
  | Value.int n => toString n
  | Value.other sprint _ => sprint

/-- The function `toString` of structlog.go: a type switch with the cases `string`,
`fmt.Stringer`, and `default`.  The case `fmt.Stringer` returns `s.String()` and has
no `recover`: when `String()` panics so does `toString`, which is the result `none`. -/
def toString (v : Value) : Option String :=
  match v with
  | Value.str s => some s
  | Value.stringer rendered _ => rendered
  | _ => some (sprintV v)

/-- The body of the `for i := 0; i < len(v); i += 2` loop of `flatten`, over the part
of `v` from index `i` on.  `v[i].(string)` panics on a key that is not a string,
`v[i+1]` panics when the value is missing, and a panic of `toString` ends the scan. -/
def flattenLoop : List Value → String → String → List Value →
    Option (String × String × List Value)
  | [], msg, level, keyvals => some (msg, level, keyvals)
  | Value.str key :: value :: rest, msg, level, keyvals =>
    if key = "msg" then
      match toString value with
      | none => none
      | some s => flattenLoop rest s level keyvals
    else if key = "level" ∨ key = "lvl" then
      match toString value with
      | none => none
      | some s => flattenLoop rest msg s keyvals
    else
      flattenLoop rest msg level (keyvals ++ [Value.str key, value])
  | _, _, _, _ => none

/-- The function `flatten` of structlog.go.  `kvFlatten` is `kv.Flatten`. -/
def flatten (kvFlatten : List Value → List Value) (v : List Value) :
    Option (String × String × List Value) :=
  flattenLoop (kvFlatten v) "" "" []

/-- The `for len(keyvals) > 0` loop of `stdLogger.Log`, on the buffer `buf`.  `enc` is
`logfmt.MarshalKeyvals`.  `keyvals[2:]` panics on a slice of length one.  A buffer
holds at least one byte exactly when its text is not empty. -/
def encodeLoop {ε : Type} (enc : List Value → Except ε String) :
    List Value → String → Option String
  | [], buf => some buf
  | [x], buf =>
    match enc [x] with
    | Except.ok b => some ((if buf ≠ "" then buf ++ ": " else buf) ++ b)
    | Except.error _ => none
  | x :: y :: rest, buf =>
    match enc (x :: y :: rest) with
    | Except.ok b => some ((if buf ≠ "" then buf ++ ": " else buf) ++ b)
    | Except.error _ => encodeLoop enc rest buf

/-- The type `stdLogger` of structlog.go. -/
structure stdLogger where
  calldepth : Int
  deriving DecidableEq, Repr

/-- Go's `int` addition on a 64-bit platform: the sum wraps around modulo `2^64`
into the range `-2^63 .. 2^63 - 1`. -/
def wrapInt64 (n : Int) : Int := (n + 2 ^ 63) % 2 ^ 64 - 2 ^ 63

/-- The function `StdLogger` of structlog.go. -/
def StdLogger (calldepth : Int) : stdLogger :=
  { calldepth := wrapInt64 (calldepth + 2) }

/-- What a call of `Log` does: the calls of `log.Output` it makes, each with its
calldepth and text, in order, and the error it returns (`none` is Go's `nil`). -/
structure LogResult (ε : Type) where
  output : List (Int × String)
  err : Option ε
  deriving DecidableEq, Repr

/-- The buffer of `stdLogger.Log` when it reaches its loop: the two `if` statements
that write the level and the message into the fresh `bytes.Buffer`. -/
def writeHeader (level msg : String) : String :=
  let buf := ""
  let buf := if level ≠ "" then buf ++ level else buf
  let buf := if msg ≠ "" then (if buf ≠ "" then buf ++ ": " else buf) ++ msg else buf
  buf

/-- The method `stdLogger.Log` of structlog.go: `flatten`, the level and the message,
the retry loop, one call of `log.Output`, and `return nil`. -/
def stdLogger.Log {ε : Type} (enc : List Value → Except ε String)
    (kvFlatten : List Value → List Value) (logger : stdLogger) (keyvals : List Value) :
    Option (LogResult ε) :=
  match flatten kvFlatten keyvals with
  | none => none
  | some (msg, level, keyvals) =>
    match encodeLoop enc keyvals (writeHeader level msg) with
    | none => none
    | some buf => some { output := [(logger.calldepth, buf)], err := none }

/-- Errors the key=value encoder reports. -/
inductive EncodeError where
  | invalidKey
  | unsupportedKeyType
  deriving DecidableEq, Repr

deriving instance DecidableEq for Except

/-- Modelled from the spec: the text of a value inside the key=value fragment of
`logfmt.MarshalKeyvals` (a package outside this repository).  Values containing
whitespace are quoted; a value whose type the encoder does not support is replaced by
the error-fallback text `"unsupported value type"`, as the expected output of
`ExampleStdLogger` shows for `os.Stderr`.  Escape sequences inside a quoted value are
not modelled. -/
def writeValue : Value → String
  | Value.other _ false => "\"unsupported value type\""
  | v => if (sprintV v).toList.any Char.isWhitespace then "\"" ++ sprintV v ++ "\"" else sprintV v

/-- Modelled from the spec: the key of a pair in the key=value fragment.  After
flattening every key is text.  The spec says only that the encoder may fail; the
failure modelled is the one of `logfmt`, which rejects a key without characters. -/
def writeKey : Value → Except EncodeError String
  | Value.str key => if key = "" then Except.error EncodeError.invalidKey else Except.ok key
  | _ => Except.error EncodeError.unsupportedKeyType

/-- Modelled from the spec: the `key=value` texts of the pairs of a sequence, in
order; a trailing key without a value is given the value `null`. -/
def encodePairs : List Value → Except EncodeError (List String)
  | [] => Except.ok []
  | [k] =>
    match writeKey k with
    | Except.ok ks => Except.ok [ks ++ "=null"]
    | Except.error e => Except.error e
  | k :: v :: rest =>
    match writeKey k with
    | Except.error e => Except.error e
    | Except.ok ks =>
      match encodePairs rest with
      | Except.error e => Except.error e
      | Except.ok out => Except.ok ((ks ++ "=" ++ writeValue v) :: out)

/-- Modelled from the spec: `logfmt.MarshalKeyvals`, the strict key=value encoder:
`<key>=<value> <key>=<value> ...`, the pairs separated by one space. -/
def marshalKeyvals (keyvals : List Value) : Except EncodeError String :=
  match encodePairs keyvals with
  | Except.ok out => Except.ok (" ".intercalate out)
  | Except.error e => Except.error e

/-- The flat alternating sequence of a list of (key, value) pairs with text keys. -/
def unpairs : List (String × Value) → List Value
  | [] => []
  | (k, v) :: ps => Value.str k :: v :: unpairs ps

/-- Modelled from the spec: the postcondition of `kv.Flatten`, "length is even; each
even-indexed element is a text key". -/
def wellFormed : List Value → Bool
  | [] => true
  | Value.str _ :: _ :: rest => wellFormed rest
  | _ => false

/-- The pairs whose key is none of `"msg"`, `"level"`, `"lvl"`, in their order. -/
def generic (ps : List (String × Value)) : List (String × Value) :=
  ps.filter fun p => decide (p.1 ≠ "msg" ∧ p.1 ≠ "level" ∧ p.1 ≠ "lvl")

/-- The text `toString` returns for a value, and the empty text when it panics. -/
def textOf (v : Value) : String := (toString v).getD ""

/-- No pair with the key `"msg"`, `"level"` or `"lvl"` has a value on which `toString`
panics: these are the only values `flatten` converts. -/
def convertible (ps : List (String × Value)) : Prop :=
  ∀ p ∈ ps, p.1 = "msg" ∨ p.1 = "level" ∨ p.1 = "lvl" → toString p.2 ≠ none

instance (ps : List (String × Value)) : Decidable (convertible ps) := by
  unfold convertible
  infer_instance

/-- Last-write-wins over the pairs with key `"msg"`: the text of the value of the last
such pair, or `m` when there is none. -/
def msgOf : List (String × Value) → String → String
  | [], m => m
  | (k, v) :: ps, m => msgOf ps (if k = "msg" then textOf v else m)

/-- Last-write-wins over the pairs with key `"level"` or `"lvl"`: the text of the value
of the last such pair, or `l` when there is none. -/
def levelOf : List (String × Value) → String → String
  | [], l => l
  | (k, v) :: ps, l => levelOf ps (if k = "level" ∨ k = "lvl" then textOf v else l)

/-- Whether `pat` is a prefix of `s`. -/
def startsWith : List Char → List Char → Bool
  | [], _ => true
  | _ :: _, [] => false
  | p :: pat, c :: s => p = c && startsWith pat s

/-- The number of positions of `s` at which the text `pat` occurs. -/
def occurrences (pat : List Char) : List Char → Nat
  | [] => if pat = [] then 1 else 0
  | c :: s => (if startsWith pat (c :: s) then 1 else 0) + occurrences pat s

/-- The type `LoggerFunc` of structlog.go, `func(...interface{}) error`.  A Go function
may read and write variables it closes over: `σ` is that state, passed in and out. -/
def LoggerFunc (σ ε : Type) : Type := List Value → σ → Option ε × σ

/-- The method `LoggerFunc.Log` of structlog.go: `return f(keyvals...)`. -/
def LoggerFunc.Log {σ ε : Type} (f : LoggerFunc σ ε) (keyvals : List Value) :
    σ → Option ε × σ :=
  f keyvals

/-- The function `f` with a record of its calls: next to the state of `f`, the
arguments of every call made so far, in order. -/
def recordCalls {σ ε : Type} (f : LoggerFunc σ ε) : LoggerFunc (σ × List (List Value)) ε :=
  fun keyvals s => ((f keyvals s.1).1, ((f keyvals s.1).2, s.2 ++ [keyvals]))

/-- The `for len(keyvals) > 0` loop of `stdLogger.Log` as `encodeLoop`, with the
number of calls of `logfmt.MarshalKeyvals` made so far next to the buffer. -/
def encodeLoopCalls {ε : Type} (enc : List Value → Except ε String) :
    List Value → String → Nat → Option (String × Nat)
  | [], buf, calls => some (buf, calls)
  | [x], buf, calls =>
    match enc [x] with
    | Except.ok b => some ((if buf ≠ "" then buf ++ ": " else buf) ++ b, calls + 1)
    | Except.error _ => none
  | x :: y :: rest, buf, calls =>
    match enc (x :: y :: rest) with
    | Except.ok b => some ((if buf ≠ "" then buf ++ ": " else buf) ++ b, calls + 1)
    | Except.error _ => encodeLoopCalls enc rest buf (calls + 1)

/-- Modelled from the spec: the frame whose file and line `log.Output` prints.
`log.Output` belongs to the standard library; by its documentation, which the comment
of `StdLogger` follows, a calldepth of 1 names the caller of `Output`, 2 the caller of
that function, and so on.  `stack` lists the frames from the caller of `log.Output`
outwards. -/
def outputFrame {φ : Type} (stack : List φ) (calldepth : Int) : Option φ :=
  if 1 ≤ calldepth then stack[(calldepth - 1).toNat]? else none

end Structlog

namespace Structlog

theorem ne_empty_append_left {a : String} (b : String) (h : a ≠ "") : a ++ b ≠ "" := by
  intro hab
  apply h
  have := congrArg String.length hab
  simp at this
  exact String.ext (by simpa using List.length_eq_zero.mp (by simpa using this.1))

theorem wellFormed_unpairs (ps : List (String × Value)) : wellFormed (unpairs ps) = true := by
  induction ps with
  | nil => rfl
  | cons p ps ih => obtain ⟨k, v⟩ := p; simpa [unpairs, wellFormed] using ih

theorem wellFormed_exists_unpairs :
    ∀ xs : List Value, wellFormed xs = true → ∃ ps, xs = unpairs ps
  | [], _ => ⟨[], rfl⟩
  | [x], h => by cases x <;> simp [wellFormed] at h
  | Value.str k :: v :: rest, h => by
    have h1 : wellFormed rest = true := by simpa [wellFormed] using h
    obtain ⟨ps, hps⟩ := wellFormed_exists_unpairs rest h1
    exact ⟨(k, v) :: ps, by simp [unpairs, hps]⟩
  | Value.stringer _ _ :: _ :: _, h => by simp [wellFormed] at h
  | Value.int _ :: _ :: _, h => by simp [wellFormed] at h
  | Value.other _ _ :: _ :: _, h => by simp [wellFormed] at h

theorem unpairs_length (ps : List (String × Value)) : (unpairs ps).length = 2 * ps.length := by
  induction ps with
  | nil => rfl
  | cons p ps ih => obtain ⟨k, v⟩ := p; simp [unpairs, ih]; omega

theorem unpairs_append (ps qs : List (String × Value)) :
    unpairs (ps ++ qs) = unpairs ps ++ unpairs qs := by
  induction ps with
  | nil => rfl
  | cons p ps ih => obtain ⟨k, v⟩ := p; simp [unpairs, ih]

theorem msgOf_append (ps qs : List (String × Value)) (m : String) :
    msgOf (ps ++ qs) m = msgOf qs (msgOf ps m) := by
  induction ps generalizing m with
  | nil => rfl
  | cons p ps ih => obtain ⟨k, v⟩ := p; simp [msgOf, ih]

theorem msgOf_of_no_key (ps : List (String × Value)) (m : String)
    (h : ∀ p ∈ ps, p.1 ≠ "msg") : msgOf ps m = m := by
  induction ps generalizing m with
  | nil => rfl
  | cons p ps ih =>
    obtain ⟨k, v⟩ := p
    have hk : k ≠ "msg" := h (k, v) (List.mem_cons_self _ _)
    simp only [msgOf, hk, if_false]
    exact ih m fun q hq => h q (List.mem_cons_of_mem _ hq)

theorem levelOf_append (ps qs : List (String × Value)) (l : String) :
    levelOf (ps ++ qs) l = levelOf qs (levelOf ps l) := by
  induction ps generalizing l with
  | nil => rfl
  | cons p ps ih => obtain ⟨k, v⟩ := p; simp [levelOf, ih]

theorem levelOf_of_no_key (ps : List (String × Value)) (l : String)
    (h : ∀ p ∈ ps, p.1 ≠ "level" ∧ p.1 ≠ "lvl") : levelOf ps l = l := by
  induction ps generalizing l with
  | nil => rfl
  | cons p ps ih =>
    obtain ⟨k, v⟩ := p
    have hk := h (k, v) (List.mem_cons_self _ _)
    have hk' : ¬ (k = "level" ∨ k = "lvl") := by simpa using hk
    simp only [levelOf, hk', if_false]
    exact ih l fun q hq => h q (List.mem_cons_of_mem _ hq)

theorem convertible_cons (p : String × Value) (ps : List (String × Value)) :
    convertible (p :: ps) ↔
      (p.1 = "msg" ∨ p.1 = "level" ∨ p.1 = "lvl" → toString p.2 ≠ none) ∧ convertible ps := by
  simp [convertible]

theorem convertible_append (ps qs : List (String × Value)) :
    convertible (ps ++ qs) ↔ convertible ps ∧ convertible qs := by
  simp only [convertible, List.mem_append]
  constructor
  · intro h
    exact ⟨fun p hp => h p (Or.inl hp), fun p hp => h p (Or.inr hp)⟩
  · rintro ⟨h1, h2⟩ p (hp | hp)
    · exact h1 p hp
    · exact h2 p hp

theorem toString_eq_some_textOf (v : Value) (h : toString v ≠ none) :
    toString v = some (textOf v) := by
  cases hv : toString v with
  | none => exact absurd hv h
  | some t => simp [textOf, hv]

/-- The classification pass on a flat sequence of pairs: it panics exactly when
`toString` panics on a value it converts, and otherwise its three results are the two
last-write-wins folds and the generic pairs appended to the accumulator. -/
theorem flattenLoop_unpairs_cases (ps : List (String × Value)) (m l : String)
    (acc : List Value) :
    flattenLoop (unpairs ps) m l acc =
      if convertible ps then some (msgOf ps m, levelOf ps l, acc ++ unpairs (generic ps))
      else none := by
  induction ps generalizing m l acc with
  | nil => simp [unpairs, flattenLoop, msgOf, levelOf, generic, convertible]
  | cons p ps ih =>
    obtain ⟨k, v⟩ := p
    by_cases h1 : k = "msg"
    · subst h1
      cases hv : toString v with
      | none =>
        have : ¬ convertible (("msg", v) :: ps) := fun hc =>
          (convertible_cons _ _).mp hc |>.1 (Or.inl rfl) hv
        simp [unpairs, flattenLoop, hv, this]
      | some t =>
        have hc : convertible (("msg", v) :: ps) ↔ convertible ps := by
          rw [convertible_cons]; simp [hv]
        simp [unpairs, flattenLoop, msgOf, levelOf, generic, ih, hv, textOf, hc]
    · by_cases h2 : k = "level" ∨ k = "lvl"
      · cases hv : toString v with
        | none =>
          have : ¬ convertible ((k, v) :: ps) := fun hc =>
            (convertible_cons _ _).mp hc |>.1 (Or.inr h2) hv
          simp [unpairs, flattenLoop, hv, this, h1, h2]
        | some t =>
          have hc : convertible ((k, v) :: ps) ↔ convertible ps := by
            rw [convertible_cons]; simp [hv]
          rcases h2 with h2 | h2 <;> subst h2 <;>
            simp [unpairs, flattenLoop, msgOf, levelOf, generic, ih, hv, textOf, hc]
      · have h2' : k ≠ "level" ∧ k ≠ "lvl" := by simpa using h2
        have hc : convertible ((k, v) :: ps) ↔ convertible ps := by
          rw [convertible_cons]; simp [h1, h2'.1, h2'.2]
        simp [unpairs, flattenLoop, msgOf, levelOf, generic, ih, h1, h2, h2'.1, h2'.2,
          List.filter_cons, hc]

/-- The classification pass on a flat sequence of pairs whose converted values do not
make `toString` panic: its three results are the two last-write-wins folds and the
generic pairs appended to the accumulator. -/
theorem flattenLoop_unpairs (ps : List (String × Value)) (m l : String) (acc : List Value)
    (hsafe : convertible ps) :
    flattenLoop (unpairs ps) m l acc =
      some (msgOf ps m, levelOf ps l, acc ++ unpairs (generic ps)) := by
  rw [flattenLoop_unpairs_cases, if_pos hsafe]

theorem flatten_unpairs (kvFlatten : List Value → List Value) (v : List Value)
    (ps : List (String × Value)) (hflat : kvFlatten v = unpairs ps)
    (hsafe : convertible ps) :
    flatten kvFlatten v = some (msgOf ps "", levelOf ps "", unpairs (generic ps)) := by
  simp [flatten, hflat, flattenLoop_unpairs ps "" "" [] hsafe]

theorem flatten_unpairs_panic (kvFlatten : List Value → List Value) (v : List Value)
    (ps : List (String × Value)) (hflat : kvFlatten v = unpairs ps)
    (hpanic : ¬ convertible ps) : flatten kvFlatten v = none := by
  simp [flatten, hflat, flattenLoop_unpairs_cases, hpanic]

theorem even_length_generic (ps : List (String × Value)) :
    (unpairs (generic ps)).length % 2 = 0 := by
  rw [unpairs_length]; omega

theorem encodeLoop_ok {ε : Type} (enc : List Value → Except ε String) (R : List Value)
    (buf b : String) (hne : R ≠ []) (h : enc R = Except.ok b) :
    encodeLoop enc R buf = some ((if buf ≠ "" then buf ++ ": " else buf) ++ b) := by
  match R, hne, h with
  | [x], _, h => simp [encodeLoop, h]
  | x :: y :: rest, _, h => simp [encodeLoop, h]

theorem encodeLoop_error {ε : Type} (enc : List Value → Except ε String) (x y : Value)
    (rest : List Value) (buf : String) (e : ε) (h : enc (x :: y :: rest) = Except.error e) :
    encodeLoop enc (x :: y :: rest) buf = encodeLoop enc rest buf := by
  simp [encodeLoop, h]

theorem encodeLoop_first_success {ε : Type} (enc : List Value → Except ε String) :
    ∀ (R : List Value) (j : Nat) (b buf : String), R.length % 2 = 0 → 2 * j < R.length →
      enc (R.drop (2 * j)) = Except.ok b →
      (∀ i, i < j → ∃ e, enc (R.drop (2 * i)) = Except.error e) →
      encodeLoop enc R buf = some ((if buf ≠ "" then buf ++ ": " else buf) ++ b)
  | [], _, _, _, _, hj, _, _ => by simp at hj
  | [x], _, _, _, he, _, _, _ => by simp at he
  | x :: y :: rest, 0, b, buf, _, _, hok, _ =>
    encodeLoop_ok enc (x :: y :: rest) buf b (by simp) (by simpa using hok)
  | x :: y :: rest, j + 1, b, buf, he, hj, hok, hfail => by
    obtain ⟨e, h0⟩ := hfail 0 (Nat.succ_pos j)
    rw [encodeLoop_error enc x y rest buf e (by simpa using h0)]
    have hd : ∀ i, (x :: y :: rest).drop (2 * (i + 1)) = rest.drop (2 * i) := fun i => by
      rw [Nat.mul_add]; rfl
    refine encodeLoop_first_success enc rest j b buf ?_ ?_ ?_ ?_
    · simp only [List.length_cons] at he; omega
    · simp only [List.length_cons] at hj; omega
    · rw [← hd]; exact hok
    · intro i hi
      rw [← hd]; exact hfail (i + 1) (Nat.succ_lt_succ hi)

theorem encodeLoop_all_fail {ε : Type} (enc : List Value → Except ε String) :
    ∀ (R : List Value) (buf : String), R.length % 2 = 0 →
      (∀ j, 2 * j < R.length → ∃ e, enc (R.drop (2 * j)) = Except.error e) →
      encodeLoop enc R buf = some buf
  | [], _, _, _ => rfl
  | [x], _, he, _ => by simp at he
  | x :: y :: rest, buf, he, hfail => by
    obtain ⟨e, h0⟩ := hfail 0 (by simp)
    rw [encodeLoop_error enc x y rest buf e (by simpa using h0)]
    have hd : ∀ i, (x :: y :: rest).drop (2 * (i + 1)) = rest.drop (2 * i) := fun i => by
      rw [Nat.mul_add]; rfl
    refine encodeLoop_all_fail enc rest buf ?_ ?_
    · simp only [List.length_cons] at he; omega
    · intro j hj
      rw [← hd]; exact hfail (j + 1) (by simp only [List.length_cons]; omega)

/-- The retry loop never panics on a sequence of even length: it ends with the buffer
as it was, or with one encoded fragment written after it. -/
theorem encodeLoop_total {ε : Type} (enc : List Value → Except ε String) :
    ∀ (R : List Value) (buf : String), R.length % 2 = 0 →
      encodeLoop enc R buf = some buf ∨
        ∃ b, encodeLoop enc R buf = some ((if buf ≠ "" then buf ++ ": " else buf) ++ b)
  | [], _, _ => Or.inl rfl
  | [x], _, he => by simp at he
  | x :: y :: rest, buf, he => by
    cases h : enc (x :: y :: rest) with
    | ok b => exact Or.inr ⟨b, encodeLoop_ok enc _ buf b (by simp) h⟩
    | error e =>
      rw [encodeLoop_error enc x y rest buf e h]
      exact encodeLoop_total enc rest buf (by simp only [List.length_cons] at he; omega)

/-- The loop on any buffer, from the loop on the empty buffer, when the encoder gives
no empty text for a sequence that is not empty. -/
theorem encodeLoop_of_fragment {ε : Type} (enc : List Value → Except ε String) :
    ∀ (R : List Value) (buf F : String), encodeLoop enc R "" = some F →
      (∀ n, n < R.length → enc (R.drop n) ≠ Except.ok "") →
      encodeLoop enc R buf =
        some (if F ≠ "" then (if buf ≠ "" then buf ++ ": " else buf) ++ F else buf)
  | [], buf, F, hF, _ => by
    have : F = "" := by simpa [encodeLoop] using hF.symm
    simp [encodeLoop, this]
  | [x], buf, F, hF, hne => by
    cases h : enc [x] with
    | error e => simp [encodeLoop, h] at hF
    | ok b =>
      have hb : b ≠ "" := fun hb => hne 0 (by simp) (by simpa [hb] using h)
      have : F = b := by simpa [encodeLoop, h] using hF.symm
      simp [encodeLoop, h, this, hb]
  | x :: y :: rest, buf, F, hF, hne => by
    cases h : enc (x :: y :: rest) with
    | error e =>
      rw [encodeLoop_error enc x y rest _ e h] at hF ⊢
      refine encodeLoop_of_fragment enc rest buf F hF fun n hn => ?_
      have := hne (n + 2) (by simp only [List.length_cons]; omega)
      simpa using this
    | ok b =>
      have hb : b ≠ "" := fun hb => hne 0 (by simp) (by simpa [hb] using h)
      have : F = b := by simpa [encodeLoop, h] using hF.symm
      simp [encodeLoop, h, this, hb]

theorem writeHeader_eq (L M : String) :
    writeHeader L M = (if L ≠ "" then L else "") ++
      (if M ≠ "" then (if L ≠ "" then ": " else "") ++ M else "") := by
  by_cases hL : L = "" <;> by_cases hM : M = "" <;>
    simp [writeHeader, hL, hM, String.append_assoc]

theorem unpairs_drop (ps : List (String × Value)) (i : Nat) :
    (unpairs ps).drop (2 * i) = unpairs (ps.drop i) := by
  induction i generalizing ps with
  | zero => simp
  | succ i ih =>
    cases ps with
    | nil => simp [unpairs]
    | cons p ps =>
      obtain ⟨k, v⟩ := p
      rw [Nat.mul_add]
      simpa [unpairs] using ih ps

/-- How the retry loop ends on a sequence of even length: the buffer as it was, or,
after it, the text the encoder gives for a suffix reached by dropping whole pairs. -/
theorem encodeLoop_cases {ε : Type} (enc : List Value → Except ε String) :
    ∀ (R : List Value) (buf : String), R.length % 2 = 0 →
      encodeLoop enc R buf = some buf ∨
        ∃ j b, 2 * j < R.length ∧ enc (R.drop (2 * j)) = Except.ok b ∧
          encodeLoop enc R buf = some ((if buf ≠ "" then buf ++ ": " else buf) ++ b)
  | [], _, _ => Or.inl rfl
  | [x], _, he => by simp at he
  | x :: y :: rest, buf, he => by
    cases h : enc (x :: y :: rest) with
    | ok b => exact Or.inr ⟨0, b, by simp, by simpa using h, encodeLoop_ok enc _ buf b (by simp) h⟩
    | error e =>
      rw [encodeLoop_error enc x y rest buf e h]
      rcases encodeLoop_cases enc rest buf
          (by simp only [List.length_cons] at he; omega) with h1 | ⟨j, b, hj, hok, h1⟩
      · exact Or.inl h1
      · refine Or.inr ⟨j + 1, b, by simp only [List.length_cons]; omega, ?_, h1⟩
        rw [Nat.mul_add]; exact hok

theorem intercalate_go_ne_empty (sep : String) :
    ∀ (l : List String) (acc : String), acc ≠ "" → String.intercalate.go acc sep l ≠ ""
  | [], _, h => by simpa [String.intercalate.go] using h
  | a :: l, acc, h => by
    simp only [String.intercalate.go]
    exact intercalate_go_ne_empty sep l _
      (by rw [String.append_assoc]; exact ne_empty_append_left _ h)

theorem writeKey_ne_empty (k : Value) (ks : String) (h : writeKey k = Except.ok ks) :
    ks ≠ "" := by
  cases k with
  | str key =>
    by_cases hk : key = ""
    · simp [writeKey, hk] at h
    · have : key = ks := by simpa [writeKey, hk] using h
      exact this ▸ hk
  | stringer _ _ => simp [writeKey] at h
  | int _ => simp [writeKey] at h
  | other _ _ => simp [writeKey] at h

/-- The modelled encoder gives no empty text for a sequence that is not empty. -/
theorem marshalKeyvals_ne_empty (xs : List Value) (b : String) (hxs : xs ≠ [])
    (h : marshalKeyvals xs = Except.ok b) : b ≠ "" := by
  match xs, hxs with
  | [k], _ =>
    cases hk : writeKey k with
    | error e => simp [marshalKeyvals, encodePairs, hk] at h
    | ok ks =>
      have : ks ++ "=null" = b := by
        simpa [marshalKeyvals, encodePairs, hk, String.intercalate, String.intercalate.go]
          using h
      exact this ▸ ne_empty_append_left _ (writeKey_ne_empty k ks hk)
  | k :: v :: rest, _ =>
    cases hk : writeKey k with
    | error e => simp [marshalKeyvals, encodePairs, hk] at h
    | ok ks =>
      cases hr : encodePairs rest with
      | error e => simp [marshalKeyvals, encodePairs, hk, hr] at h
      | ok out =>
        have : String.intercalate.go (ks ++ "=" ++ writeValue v) " " out = b := by
          simpa [marshalKeyvals, encodePairs, hk, hr, String.intercalate] using h
        rw [← this]
        exact intercalate_go_ne_empty " " out _
          (by rw [String.append_assoc]; exact ne_empty_append_left _ (writeKey_ne_empty k ks hk))

/-- The modelled encoder succeeds on pairs whose keys are not empty, whatever their
values, and renders every one of them, in order. -/
theorem marshalKeyvals_unpairs (ps : List (String × Value)) (hkeys : ∀ p ∈ ps, p.1 ≠ "") :
    marshalKeyvals (unpairs ps) =
      Except.ok (" ".intercalate (ps.map fun p => p.1 ++ "=" ++ writeValue p.2)) := by
  have h : encodePairs (unpairs ps) =
      Except.ok (ps.map fun p => p.1 ++ "=" ++ writeValue p.2) := by
    induction ps with
    | nil => rfl
    | cons p ps ih =>
      obtain ⟨k, v⟩ := p
      have hk : k ≠ "" := hkeys (k, v) (List.mem_cons_self _ _)
      simp [unpairs, encodePairs, writeKey, hk,
        ih fun q hq => hkeys q (List.mem_cons_of_mem _ hq)]
  simp [marshalKeyvals, h]

theorem header_fragment_eq_intercalate (L M F : String) :
    (if F ≠ "" then (if writeHeader L M ≠ "" then writeHeader L M ++ ": "
        else writeHeader L M) ++ F else writeHeader L M) =
      ": ".intercalate ([L, M, F].filter fun t => decide (t ≠ "")) := by
  by_cases hL : L = "" <;> by_cases hM : M = "" <;> by_cases hFe : F = "" <;>
    simp [writeHeader, hL, hM, hFe, ne_empty_append_left, String.intercalate,
      String.intercalate.go, String.append_assoc]

theorem writeHeader_eq_empty_iff (L M : String) :
    writeHeader L M = "" ↔ L = "" ∧ M = "" := by
  by_cases hL : L = "" <;> by_cases hM : M = "" <;>
    simp [writeHeader, hL, hM, ne_empty_append_left, String.append_assoc]

/-- C1: the line `stdLogger.Log` writes is the level `L` if it is not empty, then the
message `M` if it is not empty, after `": "` exactly when `L` is not empty, then the
encoded fragment `F` if it is not empty, after `": "` exactly when `L` or `M` is not
empty.  It is the non-empty ones of `L`, `M`, `F` joined by `": "`, so it is empty when
all three are and no separator is left dangling.  `F` is what the retry loop writes
into an empty buffer; the encoder, as `logfmt` does for text keys, gives no empty text
for a sequence that is not empty; `toString` panics on no value of a `"msg"`,
`"level"` or `"lvl"` pair, so that `L` and `M` exist. -/
theorem Log_line_composition {ε : Type} (enc : List Value → Except ε String)
    (kvFlatten : List Value → List Value) (logger : stdLogger) (v : List Value)
    (ps : List (String × Value)) (hflat : kvFlatten v = unpairs ps)
    (hsafe : convertible ps)
    (hne : ∀ n, n < (unpairs (generic ps)).length →
      enc ((unpairs (generic ps)).drop n) ≠ Except.ok "") :
    ∃ M L R F line, flatten kvFlatten v = some (M, L, R) ∧
      encodeLoop enc R "" = some F ∧
      stdLogger.Log enc kvFlatten logger v =
        some { output := [(logger.calldepth, line)], err := none } ∧
      line = (if L ≠ "" then L else "") ++
        (if M ≠ "" then (if L ≠ "" then ": " else "") ++ M else "") ++
        (if F ≠ "" then (if L ≠ "" ∨ M ≠ "" then ": " else "") ++ F else "") ∧
      line = ": ".intercalate ([L, M, F].filter fun t => decide (t ≠ "")) ∧
      (L = "" → M = "" → F = "" → line = "") := by
  have hfl := flatten_unpairs kvFlatten v ps hflat hsafe
  obtain ⟨F, hF⟩ : ∃ F, encodeLoop enc (unpairs (generic ps)) "" = some F := by
    rcases encodeLoop_total enc (unpairs (generic ps)) "" (even_length_generic ps) with
      h | ⟨b, h⟩
    · exact ⟨_, h⟩
    · exact ⟨_, h⟩
  refine ⟨msgOf ps "", levelOf ps "", _, F, _, hfl, hF, ?_, rfl, ?_, ?_⟩
  · simp only [stdLogger.Log, hfl]
    rw [encodeLoop_of_fragment enc _ _ F hF hne]
    by_cases hL : levelOf ps "" = "" <;> by_cases hM : msgOf ps "" = "" <;>
        by_cases hFe : F = "" <;>
      simp [writeHeader, hL, hM, hFe, ne_empty_append_left, String.append_assoc]
  · by_cases hL : levelOf ps "" = "" <;> by_cases hM : msgOf ps "" = "" <;>
        by_cases hFe : F = "" <;>
      simp [hL, hM, hFe, String.intercalate, String.intercalate.go, String.append_assoc]
  · intro hL hM hFe
    simp [hL, hM, hFe]

/-- Witness of C1: the third call of `ExampleStdLogger`, which writes
`warn: the message: p1=1 p2="param 2"`. -/
theorem Log_line_composition_witness :
    id [Value.str "msg", Value.str "the message", Value.str "p1", Value.int 1,
        Value.str "lvl", Value.str "warn", Value.str "p2", Value.str "param 2"] =
      unpairs [("msg", Value.str "the message"), ("p1", Value.int 1),
        ("lvl", Value.str "warn"), ("p2", Value.str "param 2")] ∧
    convertible [("msg", Value.str "the message"), ("p1", Value.int 1),
        ("lvl", Value.str "warn"), ("p2", Value.str "param 2")] ∧
    (∀ n, n < (unpairs (generic [("msg", Value.str "the message"), ("p1", Value.int 1),
        ("lvl", Value.str "warn"), ("p2", Value.str "param 2")])).length →
      marshalKeyvals ((unpairs (generic [("msg", Value.str "the message"),
        ("p1", Value.int 1), ("lvl", Value.str "warn"),
        ("p2", Value.str "param 2")])).drop n) ≠ Except.ok "") ∧
    stdLogger.Log marshalKeyvals id (StdLogger 1)
        [Value.str "msg", Value.str "the message", Value.str "p1", Value.int 1,
          Value.str "lvl", Value.str "warn", Value.str "p2", Value.str "param 2"] =
      some { output := [(3, "warn: the message: p1=1 p2=\"param 2\"")], err := none } ∧
    ∃ M L R F line, flatten id
        [Value.str "msg", Value.str "the message", Value.str "p1", Value.int 1,
          Value.str "lvl", Value.str "warn", Value.str "p2", Value.str "param 2"] =
        some (M, L, R) ∧
      encodeLoop marshalKeyvals R "" = some F ∧
      stdLogger.Log marshalKeyvals id (StdLogger 1)
          [Value.str "msg", Value.str "the message", Value.str "p1", Value.int 1,
            Value.str "lvl", Value.str "warn", Value.str "p2", Value.str "param 2"] =
        some { output := [((StdLogger 1).calldepth, line)], err := none } ∧
      line = (if L ≠ "" then L else "") ++
        (if M ≠ "" then (if L ≠ "" then ": " else "") ++ M else "") ++
        (if F ≠ "" then (if L ≠ "" ∨ M ≠ "" then ": " else "") ++ F else "") ∧
      line = ": ".intercalate ([L, M, F].filter fun t => decide (t ≠ "")) ∧
      (L = "" → M = "" → F = "" → line = "") :=
  ⟨rfl, by decide, by decide, by decide,
    Log_line_composition marshalKeyvals id (StdLogger 1) _
      [("msg", Value.str "the message"), ("p1", Value.int 1), ("lvl", Value.str "warn"),
        ("p2", Value.str "param 2")] rfl (by decide) (by decide)⟩

/-- C2: on a sequence `R` of even length the retry loop of `stdLogger.Log` writes
`enc S` for the longest suffix `S` of `R`, whole pairs dropped from the front and `R`
itself tried first, on which `enc` succeeds; it writes nothing when `enc` fails on
every such suffix that is not empty; when `enc` succeeds on `R` no pair is dropped. -/
theorem encodeLoop_longest_suffix {ε : Type} (enc : List Value → Except ε String)
    (R : List Value) (buf : String) (heven : R.length % 2 = 0) :
    (∀ j b, 2 * j < R.length → enc (R.drop (2 * j)) = Except.ok b →
        (∀ i, i < j → ∃ e, enc (R.drop (2 * i)) = Except.error e) →
        encodeLoop enc R buf = some ((if buf ≠ "" then buf ++ ": " else buf) ++ b)) ∧
      ((∀ j, 2 * j < R.length → ∃ e, enc (R.drop (2 * j)) = Except.error e) →
        encodeLoop enc R buf = some buf) ∧
      (∀ b, R ≠ [] → enc R = Except.ok b →
        encodeLoop enc R buf = some ((if buf ≠ "" then buf ++ ": " else buf) ++ b)) :=
  ⟨fun j b hj hok hfail => encodeLoop_first_success enc R j b buf heven hj hok hfail,
    fun hfail => encodeLoop_all_fail enc R buf heven hfail,
    fun b hne hok => encodeLoop_ok enc R buf b hne hok⟩

/-- Witness of C2: the encoder fails on the whole sequence, whose first key is empty,
and succeeds once the first pair is dropped. -/
theorem encodeLoop_longest_suffix_witness :
    [Value.str "", Value.int 1, Value.str "p2", Value.int 2].length % 2 = 0 ∧
      encodeLoop marshalKeyvals [Value.str "", Value.int 1, Value.str "p2", Value.int 2]
        "the message" = some "the message: p2=2" :=
  ⟨by decide,
    (encodeLoop_longest_suffix marshalKeyvals
      [Value.str "", Value.int 1, Value.str "p2", Value.int 2] "the message" (by decide)).1
      1 "p2=2" (by decide) (by decide)
      (fun i hi => ⟨EncodeError.invalidKey, by
        obtain rfl : i = 0 := by omega
        decide⟩)⟩

/-- Counterexample to C3: the value of `"msg"` is a nil pointer whose `String()`
panics; the input meets the postcondition of `kv.Flatten`, `toString` panics, and
`stdLogger.Log` returns nothing, so no `nil` error either. -/
theorem Log_panics_on_nil_stringer :
    wellFormed (id [Value.str "msg", Value.stringer none "<nil>"]) = true ∧
      stdLogger.Log marshalKeyvals id (StdLogger 1)
        [Value.str "msg", Value.stringer none "<nil>"] = none := by
  decide

/-- C3, amended: on every input that `kv.Flatten` turns into a flat sequence of pairs
in which `toString` panics on no value of a `"msg"`, `"level"` or `"lvl"` pair,
whatever the encoder does, `stdLogger.Log` returns, and the error it returns is
`nil`. -/
theorem Log_returns_nil {ε : Type} (enc : List Value → Except ε String)
    (kvFlatten : List Value → List Value) (logger : stdLogger) (v : List Value)
    (ps : List (String × Value)) (hflat : kvFlatten v = unpairs ps)
    (hsafe : convertible ps) :
    ∃ r, stdLogger.Log enc kvFlatten logger v = some r ∧ r.err = none := by
  simp only [stdLogger.Log, flatten_unpairs kvFlatten v ps hflat hsafe]
  rcases encodeLoop_total enc (unpairs (generic ps))
      (writeHeader (levelOf ps "") (msgOf ps "")) (even_length_generic ps) with h | ⟨b, h⟩ <;>
    exact ⟨_, by rw [h], rfl⟩

/-- Witness of C3, amended: an encoder that fails on every sequence, and a message that
is a value with a `String()` method. -/
theorem Log_returns_nil_witness :
    id [Value.str "msg", Value.stringer (some "I\x27M A STRING") "I\x27M A STRING",
        Value.str "p1", Value.other "&\x7b0xc000010018\x7d" false] =
      unpairs [("msg", Value.stringer (some "I\x27M A STRING") "I\x27M A STRING"),
        ("p1", Value.other "&\x7b0xc000010018\x7d" false)] ∧
    convertible [("msg", Value.stringer (some "I\x27M A STRING") "I\x27M A STRING"),
        ("p1", Value.other "&\x7b0xc000010018\x7d" false)] ∧
      ∃ r, stdLogger.Log (fun _ => (Except.error () : Except Unit String)) id (StdLogger 1)
          [Value.str "msg", Value.stringer (some "I\x27M A STRING") "I\x27M A STRING",
            Value.str "p1", Value.other "&\x7b0xc000010018\x7d" false] = some r ∧
        r.err = none :=
  ⟨rfl, by decide, Log_returns_nil _ id (StdLogger 1) _
    [("msg", Value.stringer (some "I\x27M A STRING") "I\x27M A STRING"),
      ("p1", Value.other "&\x7b0xc000010018\x7d" false)] rfl (by decide)⟩

/-- C4: the remaining pairs `flatten` returns are the pairs whose key is none of
`"msg"`, `"level"`, `"lvl"`, key and value unchanged, in their order, and no pair with
one of the three keys is among them; `toString` panics on no value of a `"msg"`,
`"level"` or `"lvl"` pair, so that `flatten` returns. -/
theorem flatten_remaining_pairs (kvFlatten : List Value → List Value) (v : List Value)
    (ps : List (String × Value)) (hflat : kvFlatten v = unpairs ps)
    (hsafe : convertible ps) :
    ∃ msg level, flatten kvFlatten v = some (msg, level, unpairs
        (ps.filter fun p => decide (p.1 ≠ "msg" ∧ p.1 ≠ "level" ∧ p.1 ≠ "lvl"))) ∧
      ∀ p ∈ ps.filter fun p => decide (p.1 ≠ "msg" ∧ p.1 ≠ "level" ∧ p.1 ≠ "lvl"),
        p ∈ ps ∧ p.1 ≠ "msg" ∧ p.1 ≠ "level" ∧ p.1 ≠ "lvl" := by
  refine ⟨_, _, flatten_unpairs kvFlatten v ps hflat hsafe, fun p hp => ?_⟩
  simpa using List.mem_filter.mp hp

/-- Witness of C4: the third call of `ExampleStdLogger`. -/
theorem flatten_remaining_pairs_witness :
    id [Value.str "msg", Value.str "the message", Value.str "p1", Value.int 1,
        Value.str "lvl", Value.str "warn", Value.str "p2", Value.str "param 2"] =
      unpairs [("msg", Value.str "the message"), ("p1", Value.int 1),
        ("lvl", Value.str "warn"), ("p2", Value.str "param 2")] ∧
    convertible [("msg", Value.str "the message"), ("p1", Value.int 1),
        ("lvl", Value.str "warn"), ("p2", Value.str "param 2")] ∧
    ∃ msg level, flatten id
        [Value.str "msg", Value.str "the message", Value.str "p1", Value.int 1,
          Value.str "lvl", Value.str "warn", Value.str "p2", Value.str "param 2"] =
        some (msg, level, unpairs
          ([("msg", Value.str "the message"), ("p1", Value.int 1),
            ("lvl", Value.str "warn"), ("p2", Value.str "param 2")].filter
              fun p => decide (p.1 ≠ "msg" ∧ p.1 ≠ "level" ∧ p.1 ≠ "lvl"))) ∧
      ∀ p ∈ [("msg", Value.str "the message"), ("p1", Value.int 1),
            ("lvl", Value.str "warn"), ("p2", Value.str "param 2")].filter
              fun p => decide (p.1 ≠ "msg" ∧ p.1 ≠ "level" ∧ p.1 ≠ "lvl"),
        p ∈ [("msg", Value.str "the message"), ("p1", Value.int 1),
            ("lvl", Value.str "warn"), ("p2", Value.str "param 2")] ∧
          p.1 ≠ "msg" ∧ p.1 ≠ "level" ∧ p.1 ≠ "lvl" :=
  ⟨rfl, by decide, flatten_remaining_pairs id _ _ rfl (by decide)⟩

/-- C5: the message `flatten` returns is `toString` of the value of the last pair
whose key is `"msg"`, and the empty string when no pair has the key `"msg"`;
`toString` panics on no value of a `"msg"`, `"level"` or `"lvl"` pair, so that
`flatten` returns. -/
theorem flatten_msg_last_wins (kvFlatten : List Value → List Value) (v : List Value)
    (ps : List (String × Value)) (hflat : kvFlatten v = unpairs ps)
    (hsafe : convertible ps) :
    ∃ msg level keyvals, flatten kvFlatten v = some (msg, level, keyvals) ∧
      ((∀ p ∈ ps, p.1 ≠ "msg") → msg = "") ∧
      ∀ pre x post, ps = pre ++ ("msg", x) :: post → (∀ p ∈ post, p.1 ≠ "msg") →
        toString x = some msg := by
  refine ⟨_, _, _, flatten_unpairs kvFlatten v ps hflat hsafe,
    fun h => msgOf_of_no_key ps "" h, fun pre x post hps hpost => ?_⟩
  have hx : toString x ≠ none :=
    hsafe ("msg", x) (by rw [hps]; simp) (Or.inl rfl)
  rw [hps, msgOf_append, toString_eq_some_textOf x hx]
  simpa [msgOf] using (msgOf_of_no_key post (textOf x) hpost).symm

/-- Witness of C5: two pairs with the key `"msg"`, the value of the second is the
message. -/
theorem flatten_msg_last_wins_witness :
    id [Value.str "msg", Value.str "first", Value.str "p1", Value.int 1,
        Value.str "msg", Value.int 123] =
      unpairs [("msg", Value.str "first"), ("p1", Value.int 1), ("msg", Value.int 123)] ∧
    convertible [("msg", Value.str "first"), ("p1", Value.int 1), ("msg", Value.int 123)] ∧
    flatten id [Value.str "msg", Value.str "first", Value.str "p1", Value.int 1,
        Value.str "msg", Value.int 123] = some ("123", "", [Value.str "p1", Value.int 1]) ∧
    ∃ msg level keyvals, flatten id [Value.str "msg", Value.str "first", Value.str "p1",
        Value.int 1, Value.str "msg", Value.int 123] = some (msg, level, keyvals) ∧
      ((∀ p ∈ [("msg", Value.str "first"), ("p1", Value.int 1), ("msg", Value.int 123)],
        p.1 ≠ "msg") → msg = "") ∧
      ∀ pre x post,
        [("msg", Value.str "first"), ("p1", Value.int 1), ("msg", Value.int 123)] =
          pre ++ ("msg", x) :: post → (∀ p ∈ post, p.1 ≠ "msg") → toString x = some msg :=
  ⟨rfl, by decide, by decide, flatten_msg_last_wins id _ _ rfl (by decide)⟩

/-- C6: the level `flatten` returns is `toString` of the value of the last pair whose
key is `"level"` or `"lvl"`, the two keys sharing one slot, and the empty string when
no pair has either key; `toString` panics on no value of a `"msg"`, `"level"` or
`"lvl"` pair, so that `flatten` returns. -/
theorem flatten_level_last_wins (kvFlatten : List Value → List Value) (v : List Value)
    (ps : List (String × Value)) (hflat : kvFlatten v = unpairs ps)
    (hsafe : convertible ps) :
    ∃ msg level keyvals, flatten kvFlatten v = some (msg, level, keyvals) ∧
      ((∀ p ∈ ps, p.1 ≠ "level" ∧ p.1 ≠ "lvl") → level = "") ∧
      ∀ pre k x post, k = "level" ∨ k = "lvl" → ps = pre ++ (k, x) :: post →
        (∀ p ∈ post, p.1 ≠ "level" ∧ p.1 ≠ "lvl") → toString x = some level := by
  refine ⟨_, _, _, flatten_unpairs kvFlatten v ps hflat hsafe,
    fun h => levelOf_of_no_key ps "" h, fun pre k x post hk hps hpost => ?_⟩
  have hx : toString x ≠ none :=
    hsafe (k, x) (by rw [hps]; simp) (Or.inr hk)
  rw [hps, levelOf_append, toString_eq_some_textOf x hx]
  simpa [levelOf, hk] using (levelOf_of_no_key post (textOf x) hpost).symm

/-- Witness of C6: a later `"lvl"` overwrites an earlier `"level"`. -/
theorem flatten_level_last_wins_witness :
    id [Value.str "level", Value.str "warn", Value.str "p1", Value.int 1,
        Value.str "lvl", Value.str "error"] =
      unpairs [("level", Value.str "warn"), ("p1", Value.int 1),
        ("lvl", Value.str "error")] ∧
    convertible [("level", Value.str "warn"), ("p1", Value.int 1),
        ("lvl", Value.str "error")] ∧
    flatten id [Value.str "level", Value.str "warn", Value.str "p1", Value.int 1,
        Value.str "lvl", Value.str "error"] =
      some ("", "error", [Value.str "p1", Value.int 1]) ∧
    ∃ msg level keyvals, flatten id [Value.str "level", Value.str "warn", Value.str "p1",
        Value.int 1, Value.str "lvl", Value.str "error"] = some (msg, level, keyvals) ∧
      ((∀ p ∈ [("level", Value.str "warn"), ("p1", Value.int 1),
          ("lvl", Value.str "error")], p.1 ≠ "level" ∧ p.1 ≠ "lvl") → level = "") ∧
      ∀ pre k x post, k = "level" ∨ k = "lvl" →
        [("level", Value.str "warn"), ("p1", Value.int 1), ("lvl", Value.str "error")] =
          pre ++ (k, x) :: post →
        (∀ p ∈ post, p.1 ≠ "level" ∧ p.1 ≠ "lvl") → toString x = some level :=
  ⟨rfl, by decide, by decide, flatten_level_last_wins id _ _ rfl (by decide)⟩

/-- Counterexample to C7: `toString` is not total.  On a value with a `String()` method
whose call panics, a nil pointer for one, `toString` calls `String()` without a
`recover` and panics, although `fmt.Sprintf("%v", v)` would render the value. -/
theorem toString_panics_on_nil_stringer :
    toString (Value.stringer none "<nil>") = none ∧
      sprintV (Value.stringer none "<nil>") = "<nil>" := by
  decide

/-- C7, amended: `toString` decides by the fixed priority of its type switch: a text
string is returned unchanged; any other value with a `String()` method gives exactly
what `String()` returns, not its default rendering, and `toString` panics when
`String()` does; every other value gives its default rendering, so that the number 123
gives `"123"`.  It returns a result for every value except a value whose `String()`
panics. -/
theorem toString_priority :
    (∀ s, toString (Value.str s) = some s) ∧
      (∀ rendered sprint, toString (Value.stringer rendered sprint) = rendered) ∧
      (∀ rendered sprint, rendered ≠ some sprint →
        toString (Value.stringer rendered sprint) ≠
          some (sprintV (Value.stringer rendered sprint))) ∧
      (∀ n, toString (Value.int n) = some (sprintV (Value.int n))) ∧
      (∀ sprint supported,
        toString (Value.other sprint supported) =
          some (sprintV (Value.other sprint supported))) ∧
      (∀ v, toString v = none ↔ ∃ sprint, v = Value.stringer none sprint) ∧
      toString (Value.int 123) = some "123" ∧
      toString (Value.stringer (some "I\x27M A STRING") "\x7b\x7d") =
        some "I\x27M A STRING" := by
  refine ⟨fun _ => rfl, fun _ _ => rfl, fun rendered sprint h => h, fun _ => rfl,
    fun _ _ => rfl, fun v => ?_, by decide, by decide⟩
  cases v with
  | str s => simp [toString]
  | stringer rendered sprint =>
    constructor
    · intro h
      exact ⟨sprint, by simpa [toString] using h⟩
    · rintro ⟨sp, h⟩
      cases h
      rfl
  | int n => simp [toString]
  | other sprint supported => simp [toString]

/-- C8: with the key=value encoder as the expected output of `ExampleStdLogger` shows
it, a value of a type the encoder does not support is rendered in place as the quoted
text `"unsupported value type"` and makes no encoding fail, so `stdLogger.Log` drops no
pair: every generic pair (their keys not empty) is rendered, in order, after the level
and the message (`toString` panics on neither). -/
theorem Log_unsupported_value_in_place (kvFlatten : List Value → List Value)
    (logger : stdLogger) (v : List Value) (ps : List (String × Value))
    (hflat : kvFlatten v = unpairs ps) (hsafe : convertible ps)
    (hkeys : ∀ p ∈ generic ps, p.1 ≠ "") :
    (∀ sprint, writeValue (Value.other sprint false) = "\"unsupported value type\"") ∧
      marshalKeyvals (unpairs (generic ps)) = Except.ok
        (" ".intercalate ((generic ps).map fun p => p.1 ++ "=" ++ writeValue p.2)) ∧
      ∃ M L, flatten kvFlatten v = some (M, L, unpairs (generic ps)) ∧
        stdLogger.Log marshalKeyvals kvFlatten logger v = some
          { output := [(logger.calldepth, ": ".intercalate
              ([L, M, " ".intercalate
                ((generic ps).map fun p => p.1 ++ "=" ++ writeValue p.2)].filter
                  fun t => decide (t ≠ "")))],
            err := none } := by
  have hm := marshalKeyvals_unpairs (generic ps) hkeys
  refine ⟨fun _ => rfl, hm, _, _, flatten_unpairs kvFlatten v ps hflat hsafe, ?_⟩
  simp only [stdLogger.Log, flatten_unpairs kvFlatten v ps hflat hsafe]
  rw [← header_fragment_eq_intercalate]
  by_cases hg : generic ps = []
  · simp [hg, unpairs, encodeLoop, String.intercalate]
  · have hu : unpairs (generic ps) ≠ [] := by
      intro h0
      have := congrArg List.length h0
      rw [unpairs_length] at this
      exact hg (List.length_eq_zero.mp (by simpa using this))
    rw [encodeLoop_ok marshalKeyvals _ _ _ hu hm,
      if_pos (marshalKeyvals_ne_empty _ _ hu hm)]

/-- Witness of C8: the fourth call of `ExampleStdLogger`, with `os.Stderr` as the value
of `p1`, and the line the example expects. -/
theorem Log_unsupported_value_in_place_witness :
    id [Value.str "msg", Value.str "the message", Value.str "p1",
        Value.other "&\x7b0xc000010018\x7d" false, Value.str "p2", Value.int 2] =
      unpairs [("msg", Value.str "the message"),
        ("p1", Value.other "&\x7b0xc000010018\x7d" false), ("p2", Value.int 2)] ∧
    convertible [("msg", Value.str "the message"),
        ("p1", Value.other "&\x7b0xc000010018\x7d" false), ("p2", Value.int 2)] ∧
    (∀ p ∈ generic [("msg", Value.str "the message"),
        ("p1", Value.other "&\x7b0xc000010018\x7d" false), ("p2", Value.int 2)], p.1 ≠ "") ∧
    stdLogger.Log marshalKeyvals id (StdLogger 1)
        [Value.str "msg", Value.str "the message", Value.str "p1",
          Value.other "&\x7b0xc000010018\x7d" false, Value.str "p2", Value.int 2] =
      some { output := [(3, "the message: p1=\"unsupported value type\" p2=2")],
             err := none } := by
  refine ⟨rfl, by decide, by decide, ?_⟩
  obtain ⟨_, _, M, L, hfl, hlog⟩ := Log_unsupported_value_in_place id (StdLogger 1)
    [Value.str "msg", Value.str "the message", Value.str "p1",
      Value.other "&\x7b0xc000010018\x7d" false, Value.str "p2", Value.int 2]
    [("msg", Value.str "the message"),
      ("p1", Value.other "&\x7b0xc000010018\x7d" false), ("p2", Value.int 2)]
    rfl (by decide) (by decide)
  have hML : (M, L) = ("the message", "") := by
    have h2 : flatten id [Value.str "msg", Value.str "the message", Value.str "p1",
        Value.other "&\x7b0xc000010018\x7d" false, Value.str "p2", Value.int 2] =
        some ("the message", "", [Value.str "p1",
          Value.other "&\x7b0xc000010018\x7d" false, Value.str "p2", Value.int 2]) := by
      decide
    rw [h2] at hfl
    injection hfl with hfl
    injection hfl with h3 h4
    injection h4 with h5 _
    rw [← h3, ← h5]
  injection hML with hM hL
  subst hM; subst hL
  rw [hlog]
  decide

/-- Counterexample to C9: for the pairs `p1=<unsupported>`, `p2=2` of the fourth call
of `ExampleStdLogger` the encoder does not fail, the fragment keeps `p1`, and it is not
`p2=2`. -/
theorem fragment_keeps_unsupported_pair :
    encodeLoop marshalKeyvals [Value.str "p1", Value.other "&\x7b0xc000010018\x7d" false,
        Value.str "p2", Value.int 2] "" = some "p1=\"unsupported value type\" p2=2" ∧
      encodeLoop marshalKeyvals [Value.str "p1", Value.other "&\x7b0xc000010018\x7d" false,
        Value.str "p2", Value.int 2] "" ≠ some "p2=2" := by
  decide

/-- C9, amended: when the encoder fails on the generic pairs as long as the pair `p` is
among them and succeeds on the pairs after `p`, of which there is at least one, then
`p` and every pair before it are dropped and the fragment is the encoding of the pairs
after `p`.  A value of an unsupported type is no such failure: the pairs
`p1=<unsupported>`, `p2=2` are encoded as `p1="unsupported value type" p2=2`. -/
theorem encodeLoop_front_truncation {ε : Type} (enc : List Value → Except ε String)
    (pre : List (String × Value)) (p : String × Value) (post : List (String × Value))
    (b : String)
    (hfail : ∀ i, i ≤ pre.length →
      ∃ e, enc (unpairs ((pre ++ p :: post).drop i)) = Except.error e)
    (hpost : post ≠ []) (hok : enc (unpairs post) = Except.ok b) :
    encodeLoop enc (unpairs (pre ++ p :: post)) "" = some b ∧
      marshalKeyvals [Value.str "p1", Value.other "&\x7b0xc000010018\x7d" false,
        Value.str "p2", Value.int 2] = Except.ok "p1=\"unsupported value type\" p2=2" := by
  refine ⟨?_, by decide⟩
  have hlen : (pre ++ p :: post).length = pre.length + 1 + post.length := by
    simp; omega
  have hpos : 0 < post.length := List.length_pos.mpr hpost
  have hdrop : (pre ++ p :: post).drop (pre.length + 1) = post := by
    rw [show pre ++ p :: post = (pre ++ [p]) ++ post by simp]
    exact List.drop_left' (by simp)
  have h := encodeLoop_first_success enc (unpairs (pre ++ p :: post)) (pre.length + 1) b ""
    (by rw [unpairs_length]; omega)
    (by rw [unpairs_length, hlen]; omega)
    (by rw [unpairs_drop, hdrop]; exact hok)
    (fun i hi => by rw [unpairs_drop]; exact hfail i (by omega))
  simpa using h

/-- Witness of C9, amended: the first pair has an empty key, on which the encoder
fails; the pair after it is rendered. -/
theorem encodeLoop_front_truncation_witness :
    (∀ i, i ≤ ([] : List (String × Value)).length → ∃ e, marshalKeyvals (unpairs
        (([] ++ ("", Value.int 1) :: [("p2", Value.int 2)]).drop i)) = Except.error e) ∧
      [("p2", Value.int 2)] ≠ [] ∧
      marshalKeyvals (unpairs [("p2", Value.int 2)]) = Except.ok "p2=2" ∧
      encodeLoop marshalKeyvals (unpairs ([] ++ ("", Value.int 1) :: [("p2", Value.int 2)]))
        "" = some "p2=2" :=
  have hfail : ∀ i, i ≤ ([] : List (String × Value)).length → ∃ e, marshalKeyvals (unpairs
      (([] ++ ("", Value.int 1) :: [("p2", Value.int 2)]).drop i)) = Except.error e :=
    fun i hi => ⟨EncodeError.invalidKey, by
      obtain rfl : i = 0 := by simpa using hi
      decide⟩
  ⟨hfail, by decide, by decide,
    (encodeLoop_front_truncation marshalKeyvals [] ("", Value.int 1) [("p2", Value.int 2)]
      "p2=2" hfail (by decide) (by decide)).1⟩

/-- Counterexample to C10: with the level `"error"` and the message `"error"` the line
is `error: error`, in which the text of the message occurs twice. -/
theorem msg_text_occurs_twice :
    stdLogger.Log marshalKeyvals id (StdLogger 1)
        [Value.str "lvl", Value.str "error", Value.str "msg", Value.str "error"] =
      some { output := [(3, "error: error")], err := none } ∧
      occurrences "error".toList "error: error".toList = 2 ∧
      occurrences "error".toList "error: error".toList ≠ 1 := by
  decide

/-- C10, amended: for an input whose last pair with the key `"msg"` has the value `x`,
on which `toString` gives the text `T`, the line `stdLogger.Log` writes is the level,
if not empty, then `T`, if not empty, written once as the message, after `": "` when
the level is not empty, then either nothing or, after `": "`, the encoding of a suffix
of the generic pairs, none of which has the key `"msg"`.  The same text may occur
again inside the level or inside the fragment.  `toString` panics on no value of a
`"msg"`, `"level"` or `"lvl"` pair. -/
theorem Log_msg_segment {ε : Type} (enc : List Value → Except ε String)
    (kvFlatten : List Value → List Value) (logger : stdLogger) (v : List Value)
    (pre : List (String × Value)) (x : Value) (post : List (String × Value))
    (hflat : kvFlatten v = unpairs (pre ++ ("msg", x) :: post))
    (hsafe : convertible (pre ++ ("msg", x) :: post))
    (hpost : ∀ p ∈ post, p.1 ≠ "msg") :
    ∃ T L R line S, toString x = some T ∧ flatten kvFlatten v = some (T, L, R) ∧
      R = unpairs (generic (pre ++ ("msg", x) :: post)) ∧
      (∀ p ∈ generic (pre ++ ("msg", x) :: post), p.1 ≠ "msg") ∧
      stdLogger.Log enc kvFlatten logger v =
        some { output := [(logger.calldepth, line)], err := none } ∧
      line = (if L ≠ "" then L else "") ++
        (if T ≠ "" then (if L ≠ "" then ": " else "") ++ T else "") ++ S ∧
      (S = "" ∨ ∃ j b, 2 * j < R.length ∧ enc (R.drop (2 * j)) = Except.ok b ∧
        S = (if L ≠ "" ∨ T ≠ "" then ": " else "") ++ b) := by
  have hx : toString x = some (textOf x) :=
    toString_eq_some_textOf x (hsafe ("msg", x) (by simp) (Or.inl rfl))
  have hmsg : msgOf (pre ++ ("msg", x) :: post) "" = textOf x := by
    rw [msgOf_append]
    simpa [msgOf] using msgOf_of_no_key post (textOf x) hpost
  have hfl := flatten_unpairs kvFlatten v _ hflat hsafe
  rw [hmsg] at hfl
  have hgen : ∀ p ∈ generic (pre ++ ("msg", x) :: post), p.1 ≠ "msg" := fun p hp => by
    have := (List.mem_filter.mp hp).2
    simp at this
    exact this.1
  rcases encodeLoop_cases enc (unpairs (generic (pre ++ ("msg", x) :: post)))
      (writeHeader (levelOf (pre ++ ("msg", x) :: post) "") (textOf x))
      (even_length_generic _) with h | ⟨j, b, hj, hok, h⟩
  · refine ⟨textOf x, _, _,
      writeHeader (levelOf (pre ++ ("msg", x) :: post) "") (textOf x), "",
      hx, hfl, rfl, hgen, ?_, ?_, Or.inl rfl⟩
    · simp only [stdLogger.Log, hfl, h]
    · rw [writeHeader_eq]; simp
  · refine ⟨textOf x, _, _,
      (if writeHeader (levelOf (pre ++ ("msg", x) :: post) "") (textOf x) ≠ ""
        then writeHeader (levelOf (pre ++ ("msg", x) :: post) "") (textOf x) ++ ": "
        else writeHeader (levelOf (pre ++ ("msg", x) :: post) "") (textOf x)) ++ b,
      _, hx, hfl, rfl, hgen, ?_, ?_, Or.inr ⟨j, b, hj, hok, rfl⟩⟩
    · simp only [stdLogger.Log, hfl, h]
    · have hiff := writeHeader_eq_empty_iff (levelOf (pre ++ ("msg", x) :: post) "")
        (textOf x)
      by_cases hh : writeHeader (levelOf (pre ++ ("msg", x) :: post) "") (textOf x) = ""
      · have hh' := hiff.mp hh
        simp [hh'.1, hh'.2, writeHeader]
      · have hne : levelOf (pre ++ ("msg", x) :: post) "" ≠ "" ∨ textOf x ≠ "" := by
          by_contra hc
          push_neg at hc
          exact hh (hiff.mpr hc)
        rw [if_pos hh, if_pos hne, ← writeHeader_eq, String.append_assoc]

/-- Witness of C10, amended: the input of the counterexample. -/
theorem Log_msg_segment_witness :
    id [Value.str "lvl", Value.str "error", Value.str "msg", Value.str "error"] =
      unpairs ([("lvl", Value.str "error")] ++ ("msg", Value.str "error") :: []) ∧
    convertible ([("lvl", Value.str "error")] ++ ("msg", Value.str "error") :: []) ∧
    (∀ p ∈ ([] : List (String × Value)), p.1 ≠ "msg") ∧
    ∃ T L R line S, toString (Value.str "error") = some T ∧ flatten id
        [Value.str "lvl", Value.str "error", Value.str "msg", Value.str "error"] =
        some (T, L, R) ∧
      R = unpairs (generic ([("lvl", Value.str "error")] ++ ("msg", Value.str "error") :: [])) ∧
      (∀ p ∈ generic ([("lvl", Value.str "error")] ++ ("msg", Value.str "error") :: []),
        p.1 ≠ "msg") ∧
      stdLogger.Log marshalKeyvals id (StdLogger 1)
          [Value.str "lvl", Value.str "error", Value.str "msg", Value.str "error"] =
        some { output := [((StdLogger 1).calldepth, line)], err := none } ∧
      line = (if L ≠ "" then L else "") ++
        (if T ≠ "" then (if L ≠ "" then ": " else "") ++ T else "") ++ S ∧
      (S = "" ∨ ∃ j b, 2 * j < R.length ∧ marshalKeyvals (R.drop (2 * j)) = Except.ok b ∧
        S = (if L ≠ "" ∨ T ≠ "" then ": " else "") ++ b) :=
  ⟨rfl, by decide, by simp, Log_msg_segment marshalKeyvals id (StdLogger 1) _
    [("lvl", Value.str "error")] (Value.str "error") [] rfl (by decide) (by simp)⟩

/-- C12: `LoggerFunc(f).Log(kvs...)` is `f(kvs...)`: the result and the state `f`
leaves are those of `f` on the same arguments, and `f` is called exactly once, with the
arguments unchanged and in their order.  As in `TestLoggerFunc`, a function that
stores the text of its arguments has stored `a1` after `Log("a", 1)`. -/
theorem LoggerFunc_Log_delegates {σ ε : Type} (f : LoggerFunc σ ε) (kvs : List Value)
    (s : σ) :
    LoggerFunc.Log f kvs s = f kvs s ∧
      LoggerFunc.Log (recordCalls f) kvs (s, []) = ((f kvs s).1, ((f kvs s).2, [kvs])) ∧
      LoggerFunc.Log (fun v _ => ((none : Option Unit), String.join (v.map sprintV)))
        [Value.str "a", Value.int 1] "" = (none, "a1") :=
  ⟨rfl, rfl, by decide⟩

theorem encodeLoopCalls_fst {ε : Type} (enc : List Value → Except ε String) :
    ∀ (R : List Value) (buf : String) (n : Nat),
      (encodeLoopCalls enc R buf n).map Prod.fst = encodeLoop enc R buf
  | [], _, _ => rfl
  | [x], buf, n => by
    cases h : enc [x] <;> simp [encodeLoopCalls, encodeLoop, h]
  | x :: y :: rest, buf, n => by
    cases h : enc (x :: y :: rest) with
    | ok b => simp [encodeLoopCalls, encodeLoop, h]
    | error e =>
      simp only [encodeLoopCalls, encodeLoop, h]
      exact encodeLoopCalls_fst enc rest buf (n + 1)

/-- Counterexample to C13: the value of `"lvl"` is a nil pointer whose `String()`
panics; `stdLogger.Log` panics in `flatten`, before its call of `log.Output`, and
makes no write. -/
theorem Log_writes_nothing_on_panic :
    stdLogger.Log marshalKeyvals id (StdLogger 1)
        [Value.str "lvl", Value.stringer none "<nil>", Value.str "msg", Value.str "hello"] =
      none ∧
    (stdLogger.Log marshalKeyvals id (StdLogger 1)
        [Value.str "lvl", Value.stringer none "<nil>", Value.str "msg",
          Value.str "hello"]).map (fun r => r.output.length) ≠ some 1 := by
  decide

/-- C13, amended: on every input in which `toString` panics on no value of a `"msg"`,
`"level"` or `"lvl"` pair, `stdLogger.Log` makes exactly one call of `log.Output`,
with the calldepth of the logger and the text of the buffer after the loop, however
many calls of the encoder the loop made; it makes this one call also when that text is
empty. -/
theorem Log_one_write {ε : Type} (enc : List Value → Except ε String)
    (kvFlatten : List Value → List Value) (logger : stdLogger) (v : List Value)
    (ps : List (String × Value)) (hflat : kvFlatten v = unpairs ps)
    (hsafe : convertible ps) :
    ∃ M L R line calls r, flatten kvFlatten v = some (M, L, R) ∧
      encodeLoopCalls enc R (writeHeader L M) 0 = some (line, calls) ∧
      encodeLoop enc R (writeHeader L M) = some line ∧
      stdLogger.Log enc kvFlatten logger v = some r ∧
      r.output = [(logger.calldepth, line)] ∧ r.output.length = 1 := by
  have hfl := flatten_unpairs kvFlatten v ps hflat hsafe
  obtain ⟨line, hline⟩ : ∃ line, encodeLoop enc (unpairs (generic ps))
      (writeHeader (levelOf ps "") (msgOf ps "")) = some line := by
    rcases encodeLoop_total enc (unpairs (generic ps))
      (writeHeader (levelOf ps "") (msgOf ps "")) (even_length_generic ps) with h | ⟨b, h⟩
    · exact ⟨_, h⟩
    · exact ⟨_, h⟩
  obtain ⟨calls, hcalls⟩ : ∃ calls, encodeLoopCalls enc (unpairs (generic ps))
      (writeHeader (levelOf ps "") (msgOf ps "")) 0 = some (line, calls) := by
    have hfst := encodeLoopCalls_fst enc (unpairs (generic ps))
      (writeHeader (levelOf ps "") (msgOf ps "")) 0
    rw [hline] at hfst
    cases hc : encodeLoopCalls enc (unpairs (generic ps))
        (writeHeader (levelOf ps "") (msgOf ps "")) 0 with
    | none => simp [hc] at hfst
    | some r =>
      obtain ⟨o, c⟩ := r
      have ho : o = line := by simpa [hc] using hfst
      exact ⟨c, by rw [ho]⟩
  exact ⟨_, _, _, line, calls, { output := [(logger.calldepth, line)], err := none }, hfl,
    hcalls, hline, by simp only [stdLogger.Log, hfl, hline], rfl, rfl⟩

/-- Witness of C13, amended: no message, no level, and one pair on which the encoder
fails; the one write has the empty text. -/
theorem Log_one_write_witness :
    id [Value.str "", Value.int 1] = unpairs [("", Value.int 1)] ∧
    convertible [("", Value.int 1)] ∧
    stdLogger.Log marshalKeyvals id (StdLogger 1) [Value.str "", Value.int 1] =
      some { output := [(3, "")], err := none } ∧
    ∃ M L R line calls r, flatten id [Value.str "", Value.int 1] = some (M, L, R) ∧
      encodeLoopCalls marshalKeyvals R (writeHeader L M) 0 = some (line, calls) ∧
      encodeLoop marshalKeyvals R (writeHeader L M) = some line ∧
      stdLogger.Log marshalKeyvals id (StdLogger 1) [Value.str "", Value.int 1] = some r ∧
      r.output = [((StdLogger 1).calldepth, line)] ∧ r.output.length = 1 :=
  ⟨rfl, by decide, by decide,
    Log_one_write marshalKeyvals id (StdLogger 1) _ [("", Value.int 1)] rfl (by decide)⟩

/-- On a flat sequence of pairs `stdLogger.Log` returns: one write of the buffer the
loop leaves, and no error. -/
theorem Log_of_unpairs {ε : Type} (enc : List Value → Except ε String)
    (kvFlatten : List Value → List Value) (logger : stdLogger) (v : List Value)
    (ps : List (String × Value)) (hflat : kvFlatten v = unpairs ps)
    (hsafe : convertible ps) :
    ∃ line, encodeLoop enc (unpairs (generic ps))
        (writeHeader (levelOf ps "") (msgOf ps "")) = some line ∧
      stdLogger.Log enc kvFlatten logger v =
        some { output := [(logger.calldepth, line)], err := none } := by
  have hfl := flatten_unpairs kvFlatten v ps hflat hsafe
  obtain ⟨line, hline⟩ : ∃ line, encodeLoop enc (unpairs (generic ps))
      (writeHeader (levelOf ps "") (msgOf ps "")) = some line := by
    rcases encodeLoop_total enc (unpairs (generic ps))
      (writeHeader (levelOf ps "") (msgOf ps "")) (even_length_generic ps) with h | ⟨b, h⟩
    · exact ⟨_, h⟩
    · exact ⟨_, h⟩
  exact ⟨line, hline, by simp only [stdLogger.Log, hfl, hline]⟩

theorem wellFormed_of_even_keys :
    ∀ xs : List Value, xs.length % 2 = 0 →
      (∀ i, 2 * i < xs.length → ∃ key, xs[2 * i]? = some (Value.str key)) →
      wellFormed xs = true
  | [], _, _ => rfl
  | [x], he, _ => by simp at he
  | x :: y :: rest, he, hk => by
    obtain ⟨key, h0⟩ := hk 0 (by simp)
    have hx : x = Value.str key := by simpa using h0
    subst hx
    simp only [wellFormed]
    refine wellFormed_of_even_keys rest (by simp only [List.length_cons] at he; omega)
      fun i hi => ?_
    obtain ⟨k, h1⟩ := hk (i + 1) (by simp only [List.length_cons]; omega)
    refine ⟨k, ?_⟩
    rw [Nat.mul_add] at h1
    simpa using h1

theorem wrapInt64_of_fits (n : Int) (hlo : -2 ^ 63 ≤ n) (hhi : n < 2 ^ 63) :
    wrapInt64 n = n := by
  simp only [wrapInt64]
  omega

/-- C14: for every `d` the logger `StdLogger(d)` holds the calldepth `d + 2` of Go's
`int` arithmetic, which is the integer `d + 2` whenever that is an `int`, and every
call of its `Log` that returns passes this calldepth to `log.Output`, whatever the
input.  With `log.Output` counting the frames from its own caller, which is `Log`,
this calldepth names the frame one further out than `d` frames above `Log`: the
calldepth 3 of `StdLogger(1)` names the caller of the caller of `Log`, while the caller
of `Log`, promised by the comment of `StdLogger` and expected by `ExampleStdLogger`,
is named by the calldepth 2. -/
theorem StdLogger_skip_depth {ε φ : Type} (enc : List Value → Except ε String)
    (kvFlatten : List Value → List Value) (d : Int) (v : List Value)
    (ps : List (String × Value)) (hflat : kvFlatten v = unpairs ps)
    (hsafe : convertible ps) (logFrame caller callersCaller : φ) (outer : List φ) :
    (StdLogger d).calldepth = wrapInt64 (d + 2) ∧
      (-2 ^ 63 ≤ d → d + 2 < 2 ^ 63 → (StdLogger d).calldepth = d + 2) ∧
      (∃ line, stdLogger.Log enc kvFlatten (StdLogger d) v =
        some { output := [((StdLogger d).calldepth, line)], err := none }) ∧
      (StdLogger 1).calldepth = 3 ∧
      outputFrame (logFrame :: caller :: callersCaller :: outer) (StdLogger 1).calldepth =
        some callersCaller ∧
      outputFrame (logFrame :: caller :: callersCaller :: outer) 2 = some caller := by
  have h3 : (StdLogger 1).calldepth = 3 := by decide
  refine ⟨rfl, fun hlo hhi => wrapInt64_of_fits (d + 2) (by omega) hhi, ?_, h3, ?_, ?_⟩
  · obtain ⟨line, _, hlog⟩ := Log_of_unpairs enc kvFlatten (StdLogger d) v ps hflat hsafe
    exact ⟨line, hlog⟩
  · rw [h3]
    simp [outputFrame]
  · simp [outputFrame]

/-- Witness of C14: the first call of `ExampleStdLogger`, made through `StdLogger(1)`
from the example function, which the test runner calls. -/
theorem StdLogger_skip_depth_witness :
    id [Value.str "msg", Value.str "the message"] =
      unpairs [("msg", Value.str "the message")] ∧
    convertible [("msg", Value.str "the message")] ∧
    stdLogger.Log marshalKeyvals id (StdLogger 1)
        [Value.str "msg", Value.str "the message"] =
      some { output := [(3, "the message")], err := none } ∧
    outputFrame ["stdLogger.Log", "ExampleStdLogger", "testing.runExample"]
      (StdLogger 1).calldepth = some "testing.runExample" ∧
    outputFrame ["stdLogger.Log", "ExampleStdLogger", "testing.runExample"]
      (StdLogger 1).calldepth ≠ some "ExampleStdLogger" :=
  have h := StdLogger_skip_depth marshalKeyvals id 1
    [Value.str "msg", Value.str "the message"] [("msg", Value.str "the message")] rfl
    (by decide) "stdLogger.Log" "ExampleStdLogger" "testing.runExample" []
  ⟨rfl, by decide, by decide, h.2.2.2.2.1, by rw [h.2.2.2.2.1]; decide⟩

theorem unpairs_getElem?_even (ps : List (String × Value)) (i : Nat) :
    (unpairs ps)[2 * i]? = (ps[i]?).map fun p => Value.str p.1 := by
  induction ps generalizing i with
  | nil => simp [unpairs]
  | cons p ps ih =>
    obtain ⟨k, x⟩ := p
    cases i with
    | zero => simp [unpairs]
    | succ i =>
      rw [Nat.mul_add]
      simpa [unpairs] using ih i

theorem unpairs_getElem?_odd (ps : List (String × Value)) (i : Nat) :
    (unpairs ps)[2 * i + 1]? = (ps[i]?).map Prod.snd := by
  induction ps generalizing i with
  | nil => simp [unpairs]
  | cons p ps ih =>
    obtain ⟨k, x⟩ := p
    cases i with
    | zero => simp [unpairs]
    | succ i =>
      rw [Nat.mul_add]
      simpa [unpairs] using ih i

/-- On a flat sequence of pairs, `convertible` read off the sequence by index. -/
theorem convertible_iff_index (ps : List (String × Value)) :
    convertible ps ↔
      ∀ i key x, (unpairs ps)[2 * i]? = some (Value.str key) →
        (unpairs ps)[2 * i + 1]? = some x →
        key = "msg" ∨ key = "level" ∨ key = "lvl" → toString x ≠ none := by
  constructor
  · intro hc i key x h0 h1 hk
    rw [unpairs_getElem?_even] at h0
    rw [unpairs_getElem?_odd] at h1
    cases hp : ps[i]? with
    | none => simp [hp] at h0
    | some p =>
      have hk0 : p.1 = key := by simpa [hp] using h0
      have hx : p.2 = x := by simpa [hp] using h1
      have hmem : p ∈ ps := List.getElem?_mem hp
      exact hx ▸ hc p hmem (hk0 ▸ hk)
  · intro hl p hp hk
    obtain ⟨i, hi⟩ := List.mem_iff_getElem?.mp hp
    exact hl i p.1 p.2 (by rw [unpairs_getElem?_even, hi]; rfl)
      (by rw [unpairs_getElem?_odd, hi]; rfl) hk

/-- Counterexample to C16: the sequence `"msg"`, nil pointer with a `String()` method
meets the postcondition of the flattener, and the scan of `flatten` panics, inside
`toString`. -/
theorem flatten_panics_under_postcondition :
    (id [Value.str "msg", Value.stringer none "<nil>"]).length % 2 = 0 ∧
      (∀ i, 2 * i < (id [Value.str "msg", Value.stringer none "<nil>"]).length →
        ∃ key, (id [Value.str "msg", Value.stringer none "<nil>"])[2 * i]? =
          some (Value.str key)) ∧
      flatten id [Value.str "msg", Value.stringer none "<nil>"] = none := by
  refine ⟨by decide, fun i hi => ?_, by decide⟩
  have hi0 : i = 0 := by simp at hi; omega
  subst hi0
  exact ⟨"msg", rfl⟩

/-- C16, amended: on a flattened sequence of even length whose elements at the even
indices are text keys, the scan of `flatten` makes no access out of bounds and no
failing type assertion; it returns a result, also for the empty sequence, exactly when
`toString` panics on no value of a pair with the key `"msg"`, `"level"` or `"lvl"`.
Off the precondition the scan does panic, on a key that is no text and on a missing
value. -/
theorem flatten_scan_fails_only_in_toString (kvFlatten : List Value → List Value)
    (v : List Value) (hlen : (kvFlatten v).length % 2 = 0)
    (hkeys : ∀ i, 2 * i < (kvFlatten v).length →
      ∃ key, (kvFlatten v)[2 * i]? = some (Value.str key)) :
    ((∃ msg level keyvals, flatten kvFlatten v = some (msg, level, keyvals)) ↔
        ∀ i key x, (kvFlatten v)[2 * i]? = some (Value.str key) →
          (kvFlatten v)[2 * i + 1]? = some x →
          key = "msg" ∨ key = "level" ∨ key = "lvl" → toString x ≠ none) ∧
      flatten id [] = some ("", "", []) ∧
      flatten id [Value.int 1, Value.int 2] = none ∧
      flatten id [Value.str "p1"] = none := by
  obtain ⟨ps, hps⟩ := wellFormed_exists_unpairs _ (wellFormed_of_even_keys _ hlen hkeys)
  refine ⟨?_, by decide, by decide, by decide⟩
  rw [hps, ← convertible_iff_index]
  constructor
  · rintro ⟨msg, level, keyvals, h⟩
    by_contra hc
    rw [flatten_unpairs_panic kvFlatten v ps hps hc] at h
    cases h
  · intro hc
    exact ⟨_, _, _, flatten_unpairs kvFlatten v ps hps hc⟩

/-- Witness of C16, amended: the fifth call of `ExampleStdLogger`, whose message is a
value with a `String()` method. -/
theorem flatten_scan_fails_only_in_toString_witness :
    (id [Value.str "msg", Value.stringer (some "I\x27M A STRING") "I\x27M A STRING"]).length
        % 2 = 0 ∧
    (∀ i, 2 * i < (id [Value.str "msg",
        Value.stringer (some "I\x27M A STRING") "I\x27M A STRING"]).length →
      ∃ key, (id [Value.str "msg",
        Value.stringer (some "I\x27M A STRING") "I\x27M A STRING"])[2 * i]? =
          some (Value.str key)) ∧
    flatten id [Value.str "msg", Value.stringer (some "I\x27M A STRING") "I\x27M A STRING"] =
      some ("I\x27M A STRING", "", []) ∧
    ((∃ msg level keyvals, flatten id [Value.str "msg",
        Value.stringer (some "I\x27M A STRING") "I\x27M A STRING"] =
          some (msg, level, keyvals)) ↔
      ∀ i key x, (id [Value.str "msg",
          Value.stringer (some "I\x27M A STRING") "I\x27M A STRING"])[2 * i]? =
            some (Value.str key) →
        (id [Value.str "msg",
          Value.stringer (some "I\x27M A STRING") "I\x27M A STRING"])[2 * i + 1]? = some x →
        key = "msg" ∨ key = "level" ∨ key = "lvl" → toString x ≠ none) :=
  have hkeys : ∀ i, 2 * i < (id [Value.str "msg",
        Value.stringer (some "I\x27M A STRING") "I\x27M A STRING"]).length →
      ∃ key, (id [Value.str "msg",
        Value.stringer (some "I\x27M A STRING") "I\x27M A STRING"])[2 * i]? =
          some (Value.str key) := fun i hi => by
    have hi0 : i = 0 := by simp at hi; omega
    subst hi0
    exact ⟨"msg", rfl⟩
  ⟨by decide, hkeys, by decide,
    (flatten_scan_fails_only_in_toString id _ (by decide) hkeys).1⟩

theorem wellFormed_of_flattenLoop :
    ∀ (xs : List Value) (m l : String) (acc : List Value) (r : String × String × List Value),
      flattenLoop xs m l acc = some r → wellFormed xs = true
  | [], _, _, _, _, _ => rfl
  | [x], _, _, _, _, h => by cases x <;> simp [flattenLoop] at h
  | Value.str k :: v :: rest, m, l, acc, r, h => by
    simp only [flattenLoop] at h
    simp only [wellFormed]
    split_ifs at h
    · cases hv : toString v with
      | none => simp [hv] at h
      | some t =>
        rw [hv] at h
        exact wellFormed_of_flattenLoop rest _ _ _ r h
    · cases hv : toString v with
      | none => simp [hv] at h
      | some t =>
        rw [hv] at h
        exact wellFormed_of_flattenLoop rest _ _ _ r h
    · exact wellFormed_of_flattenLoop rest _ _ _ r h
  | Value.stringer _ _ :: _ :: _, _, _, _, _, h => by simp [flattenLoop] at h
  | Value.int _ :: _ :: _, _, _, _, _, h => by simp [flattenLoop] at h
  | Value.other _ _ :: _ :: _, _, _, _, _, h => by simp [flattenLoop] at h

/-- Whatever `flatten` returns, it returns for a flat sequence of pairs on whose
converted values `toString` does not panic, and the remaining pairs are the generic
ones. -/
theorem flatten_some_unpairs (kvFlatten : List Value → List Value) (v : List Value)
    (M L : String) (R : List Value) (hfl : flatten kvFlatten v = some (M, L, R)) :
    ∃ ps, kvFlatten v = unpairs ps ∧ convertible ps ∧ M = msgOf ps "" ∧
      L = levelOf ps "" ∧ R = unpairs (generic ps) := by
  obtain ⟨ps, hps⟩ := wellFormed_exists_unpairs _
    (wellFormed_of_flattenLoop (kvFlatten v) "" "" [] _ hfl)
  have hc : convertible ps := by
    by_contra hc
    rw [flatten_unpairs_panic kvFlatten v ps hps hc] at hfl
    cases hfl
  have h := flatten_unpairs kvFlatten v ps hps hc
  rw [hfl] at h
  injection h with h
  injection h with h1 h2
  injection h2 with h2 h3
  exact ⟨ps, hps, hc, h1, h2, h3⟩

theorem encodeLoopCalls_bound {ε : Type} (enc : List Value → Except ε String) :
    ∀ (R : List Value) (buf : String) (n : Nat) (out : String) (calls : Nat),
      encodeLoopCalls enc R buf n = some (out, calls) →
      n ≤ calls ∧ calls ≤ n + (R.length + 1) / 2
  | [], _, n, _, calls, h => by
    simp [encodeLoopCalls] at h
    omega
  | [x], buf, n, out, calls, h => by
    cases hx : enc [x] with
    | ok b =>
      simp [encodeLoopCalls, hx] at h
      simp only [List.length_cons, List.length_nil]
      omega
    | error e => simp [encodeLoopCalls, hx] at h
  | x :: y :: rest, buf, n, out, calls, h => by
    cases hx : enc (x :: y :: rest) with
    | ok b =>
      simp [encodeLoopCalls, hx] at h
      simp only [List.length_cons]
      omega
    | error e =>
      simp only [encodeLoopCalls, hx] at h
      have := encodeLoopCalls_bound enc rest buf (n + 1) out calls h
      simp only [List.length_cons]
      omega

/-- C17: the remaining pairs `R` that `flatten` builds have even length, so the retry
loop of `stdLogger.Log` never slices out of bounds: for every encoder and every buffer
it ends, with the result of `encodeLoop`, after at most `n` calls of the encoder, `n`
the number of pairs of `R`, and after no call when `R` is empty. -/
theorem encodeLoop_terminates_bounded {ε : Type} (enc : List Value → Except ε String)
    (kvFlatten : List Value → List Value) (v : List Value) (M L : String)
    (R : List Value) (buf : String) (hfl : flatten kvFlatten v = some (M, L, R)) :
    R.length % 2 = 0 ∧
      ∃ out calls, encodeLoopCalls enc R buf 0 = some (out, calls) ∧
        encodeLoop enc R buf = some out ∧ calls ≤ R.length / 2 ∧
        (R = [] → calls = 0) := by
  obtain ⟨ps, -, -, -, -, hR⟩ := flatten_some_unpairs kvFlatten v M L R hfl
  have heven : R.length % 2 = 0 := hR ▸ even_length_generic ps
  refine ⟨heven, ?_⟩
  obtain ⟨out, hout⟩ : ∃ out, encodeLoop enc R buf = some out := by
    rcases encodeLoop_total enc R buf heven with h | ⟨b, h⟩
    · exact ⟨_, h⟩
    · exact ⟨_, h⟩
  have hfst := encodeLoopCalls_fst enc R buf 0
  rw [hout] at hfst
  cases hc : encodeLoopCalls enc R buf 0 with
  | none => simp [hc] at hfst
  | some r =>
    obtain ⟨o, calls⟩ := r
    have ho : o = out := by simpa [hc] using hfst
    subst ho
    have hb := encodeLoopCalls_bound enc R buf 0 o calls hc
    refine ⟨o, calls, rfl, hout, by omega, fun hnil => ?_⟩
    subst hnil
    have h2 : o = buf ∧ calls = 0 := by simpa [encodeLoopCalls] using hc.symm
    exact h2.2

/-- Witness of C17: two remaining pairs, the encoder fails on the first attempt and
succeeds on the second, which makes two calls. -/
theorem encodeLoop_terminates_bounded_witness :
    flatten id [Value.str "msg", Value.str "the message", Value.str "", Value.int 1,
        Value.str "p2", Value.int 2] =
      some ("the message", "", [Value.str "", Value.int 1, Value.str "p2", Value.int 2]) ∧
    encodeLoopCalls marshalKeyvals [Value.str "", Value.int 1, Value.str "p2", Value.int 2]
      "the message" 0 = some ("the message: p2=2", 2) ∧
    ([Value.str "", Value.int 1, Value.str "p2", Value.int 2].length % 2 = 0 ∧
      ∃ out calls, encodeLoopCalls marshalKeyvals
          [Value.str "", Value.int 1, Value.str "p2", Value.int 2] "the message" 0 =
          some (out, calls) ∧
        encodeLoop marshalKeyvals [Value.str "", Value.int 1, Value.str "p2", Value.int 2]
          "the message" = some out ∧
        calls ≤ [Value.str "", Value.int 1, Value.str "p2", Value.int 2].length / 2 ∧
        ([Value.str "", Value.int 1, Value.str "p2", Value.int 2] = [] → calls = 0)) :=
  ⟨by decide, by decide,
    encodeLoop_terminates_bounded marshalKeyvals id
      [Value.str "msg", Value.str "the message", Value.str "", Value.int 1,
        Value.str "p2", Value.int 2] "the message" ""
      [Value.str "", Value.int 1, Value.str "p2", Value.int 2] "the message" (by decide)⟩

/-- How the retry loop ends on a sequence of even length: the encoder failed on every
suffix and the buffer is as it was, or it succeeded on one and its text is written. -/
theorem encodeLoop_dichotomy {ε : Type} (enc : List Value → Except ε String) :
    ∀ (R : List Value) (buf : String), R.length % 2 = 0 →
      ((∀ j, 2 * j < R.length → ∃ e, enc (R.drop (2 * j)) = Except.error e) ∧
          encodeLoop enc R buf = some buf) ∨
        ∃ j b, 2 * j < R.length ∧ enc (R.drop (2 * j)) = Except.ok b ∧
          encodeLoop enc R buf = some ((if buf ≠ "" then buf ++ ": " else buf) ++ b)
  | [], _, _ => Or.inl ⟨fun j hj => by simp at hj, rfl⟩
  | [x], _, he => by simp at he
  | x :: y :: rest, buf, he => by
    cases h : enc (x :: y :: rest) with
    | ok b => exact Or.inr ⟨0, b, by simp, by simpa using h, encodeLoop_ok enc _ buf b (by simp) h⟩
    | error e =>
      rw [encodeLoop_error enc x y rest buf e h]
      rcases encodeLoop_dichotomy enc rest buf
          (by simp only [List.length_cons] at he; omega) with ⟨hall, h1⟩ | ⟨j, b, hj, hok, h1⟩
      · refine Or.inl ⟨fun j hj => ?_, h1⟩
        cases j with
        | zero => exact ⟨e, by simpa using h⟩
        | succ j =>
          rw [Nat.mul_add]
          exact hall j (by simp only [List.length_cons] at hj; omega)
      · refine Or.inr ⟨j + 1, b, by simp only [List.length_cons]; omega, ?_, h1⟩
        rw [Nat.mul_add]; exact hok

/-- Counterexample to C11: the input has the key `"lvl"`, with the empty text as its
value, and a message follows; the line is `hello`, which does not start with the text
of the level followed by `": "`. -/
theorem empty_level_has_no_separator :
    stdLogger.Log marshalKeyvals id (StdLogger 1)
        [Value.str "lvl", Value.str "", Value.str "msg", Value.str "hello"] =
      some { output := [(3, "hello")], err := none } ∧
      toString (Value.str "") = some "" ∧
      startsWith ("" ++ ": ").toList "hello".toList = false := by
  decide

/-- C11, amended: for an input whose last pair with the key `"level"` or `"lvl"` has a
value `x` on which `toString` gives a text `T` that is not empty, the line
`stdLogger.Log` writes starts with `T`; `T` is immediately followed by `": "` when the
message is not empty or the encoder succeeds on a suffix of the remaining pairs, and is
the whole line when the message is empty and the encoder fails on every such suffix.
`toString` panics on no value of a `"msg"`, `"level"` or `"lvl"` pair. -/
theorem Log_level_prefix {ε : Type} (enc : List Value → Except ε String)
    (kvFlatten : List Value → List Value) (logger : stdLogger) (v : List Value)
    (pre : List (String × Value)) (k : String) (x : Value) (post : List (String × Value))
    (T : String)
    (hk : k = "level" ∨ k = "lvl")
    (hflat : kvFlatten v = unpairs (pre ++ (k, x) :: post))
    (hsafe : convertible (pre ++ (k, x) :: post))
    (hpost : ∀ p ∈ post, p.1 ≠ "level" ∧ p.1 ≠ "lvl")
    (hx : toString x = some T) (hT : T ≠ "") :
    ∃ M R rest, flatten kvFlatten v = some (M, T, R) ∧
      stdLogger.Log enc kvFlatten logger v =
        some { output := [(logger.calldepth, T ++ rest)], err := none } ∧
      ((M ≠ "" ∨ ∃ j b, 2 * j < R.length ∧ enc (R.drop (2 * j)) = Except.ok b) →
        ∃ tail, rest = ": " ++ tail) ∧
      ((M = "" ∧ ∀ j, 2 * j < R.length → ∃ e, enc (R.drop (2 * j)) = Except.error e) →
        rest = "") := by
  have htx : textOf x = T := by simp [textOf, hx]
  have hlvl : levelOf (pre ++ (k, x) :: post) "" = T := by
    rw [levelOf_append]
    simpa [levelOf, hk, htx] using levelOf_of_no_key post T hpost
  have hfl := flatten_unpairs kvFlatten v _ hflat hsafe
  rw [hlvl] at hfl
  have hhdr : ∀ M : String, writeHeader T M =
      T ++ (if M ≠ "" then ": " ++ M else "") := fun M => by
    rw [writeHeader_eq]
    by_cases hM : M = "" <;> simp [hM, hT]
  have hne : ∀ M : String, writeHeader T M ≠ "" := fun M h =>
    hT ((writeHeader_eq_empty_iff _ _).mp h).1
  rcases encodeLoop_dichotomy enc (unpairs (generic (pre ++ (k, x) :: post)))
      (writeHeader T (msgOf (pre ++ (k, x) :: post) ""))
      (even_length_generic _) with ⟨hall, h⟩ | ⟨j, b, hj, hok, h⟩
  · refine ⟨_, _, (if msgOf (pre ++ (k, x) :: post) "" ≠ ""
        then ": " ++ msgOf (pre ++ (k, x) :: post) "" else ""), hfl, ?_, ?_, ?_⟩
    · simp only [stdLogger.Log, hfl, h]
      rw [hhdr]
    · rintro (hM | ⟨j, b, hj, hok⟩)
      · exact ⟨_, by rw [if_pos hM]⟩
      · obtain ⟨e, he⟩ := hall j hj
        rw [he] at hok
        cases hok
    · rintro ⟨hM, -⟩
      simp [hM]
  · refine ⟨_, _, (if msgOf (pre ++ (k, x) :: post) "" ≠ ""
        then ": " ++ msgOf (pre ++ (k, x) :: post) "" else "") ++ (": " ++ b), hfl, ?_, ?_, ?_⟩
    · simp only [stdLogger.Log, hfl, h, if_pos (hne _)]
      rw [hhdr]
      simp only [String.append_assoc]
    · intro _
      by_cases hM : msgOf (pre ++ (k, x) :: post) "" = ""
      · exact ⟨b, by simp [hM]⟩
      · exact ⟨_, by rw [if_pos hM, String.append_assoc]⟩
    · rintro ⟨-, hall⟩
      obtain ⟨e, he⟩ := hall j hj
      rw [he] at hok
      cases hok

/-- Witness of C11, amended: the second call of `ExampleStdLogger`, which writes
`error: the message: p1=1`. -/
theorem Log_level_prefix_witness :
    ("lvl" = "level" ∨ "lvl" = "lvl") ∧
    id [Value.str "msg", Value.str "the message", Value.str "p1", Value.int 1,
        Value.str "lvl", Value.str "error"] =
      unpairs ([("msg", Value.str "the message"), ("p1", Value.int 1)] ++
        ("lvl", Value.str "error") :: []) ∧
    convertible ([("msg", Value.str "the message"), ("p1", Value.int 1)] ++
        ("lvl", Value.str "error") :: []) ∧
    (∀ p ∈ ([] : List (String × Value)), p.1 ≠ "level" ∧ p.1 ≠ "lvl") ∧
    toString (Value.str "error") = some "error" ∧ "error" ≠ "" ∧
    stdLogger.Log marshalKeyvals id (StdLogger 1)
        [Value.str "msg", Value.str "the message", Value.str "p1", Value.int 1,
          Value.str "lvl", Value.str "error"] =
      some { output := [(3, "error: the message: p1=1")], err := none } ∧
    ∃ M R rest, flatten id [Value.str "msg", Value.str "the message", Value.str "p1",
        Value.int 1, Value.str "lvl", Value.str "error"] =
        some (M, "error", R) ∧
      stdLogger.Log marshalKeyvals id (StdLogger 1)
          [Value.str "msg", Value.str "the message", Value.str "p1", Value.int 1,
            Value.str "lvl", Value.str "error"] =
        some { output := [((StdLogger 1).calldepth, "error" ++ rest)], err := none } ∧
      ((M ≠ "" ∨ ∃ j b, 2 * j < R.length ∧ marshalKeyvals (R.drop (2 * j)) = Except.ok b) →
        ∃ tail, rest = ": " ++ tail) ∧
      ((M = "" ∧ ∀ j, 2 * j < R.length →
          ∃ e, marshalKeyvals (R.drop (2 * j)) = Except.error e) → rest = "") :=
  ⟨Or.inr rfl, rfl, by decide, by simp, rfl, by decide, by decide,
    Log_level_prefix marshalKeyvals id (StdLogger 1) _
      [("msg", Value.str "the message"), ("p1", Value.int 1)] "lvl" (Value.str "error") []
      "error" (Or.inr rfl) rfl (by decide) (by simp) rfl (by decide)⟩

theorem msgOf_eq_last (ps : List (String × Value)) (m : String) :
    msgOf ps m =
      (((ps.filter fun p => decide (p.1 = "msg")).getLast?).map Prod.snd).elim m textOf := by
  induction ps generalizing m with
  | nil => rfl
  | cons p ps ih =>
    obtain ⟨k, v⟩ := p
    by_cases hk : k = "msg"
    · simp only [msgOf, hk, if_true, ih, List.filter_cons, decide_True, List.getLast?_cons]
      cases (ps.filter fun p => decide (p.1 = "msg")).getLast? <;> rfl
    · simp only [msgOf, hk, if_false, ih, List.filter_cons, decide_False]
      rfl

theorem levelOf_eq_last (ps : List (String × Value)) (l : String) :
    levelOf ps l =
      (((ps.filter fun p => decide (p.1 = "level" ∨ p.1 = "lvl")).getLast?).map
        Prod.snd).elim l textOf := by
  induction ps generalizing l with
  | nil => rfl
  | cons p ps ih =>
    obtain ⟨k, v⟩ := p
    by_cases hk : k = "level" ∨ k = "lvl"
    · simp only [levelOf, hk, if_true, ih, List.filter_cons, decide_True, List.getLast?_cons]
      cases (ps.filter fun p => decide (p.1 = "level" ∨ p.1 = "lvl")).getLast? <;> rfl
    · simp only [levelOf, hk, if_false, ih, List.filter_cons, decide_False]
      rfl

theorem Log_eq_of_flatten_eq {ε : Type} (enc : List Value → Except ε String)
    (kvFlatten : List Value → List Value) (logger : stdLogger) (v w : List Value)
    (h : flatten kvFlatten v = flatten kvFlatten w) :
    stdLogger.Log enc kvFlatten logger v = stdLogger.Log enc kvFlatten logger w := by
  simp only [stdLogger.Log, h]

/-- Two flat sequences of pairs on which `flatten` does not panic, with the same value
of the last `"msg"` pair, the same value of the last `"level"`/`"lvl"` pair and the
same generic pairs, give the same result of `flatten`. -/
theorem flatten_eq_of_agree (kvFlatten : List Value → List Value) (v w : List Value)
    (ps qs : List (String × Value))
    (hv : kvFlatten v = unpairs ps) (hw : kvFlatten w = unpairs qs)
    (hps : convertible ps) (hqs : convertible qs)
    (hmsg : ((ps.filter fun p => decide (p.1 = "msg")).getLast?).map Prod.snd =
      ((qs.filter fun p => decide (p.1 = "msg")).getLast?).map Prod.snd)
    (hlvl : ((ps.filter fun p => decide (p.1 = "level" ∨ p.1 = "lvl")).getLast?).map Prod.snd =
      ((qs.filter fun p => decide (p.1 = "level" ∨ p.1 = "lvl")).getLast?).map Prod.snd)
    (hgen : generic ps = generic qs) :
    flatten kvFlatten v = flatten kvFlatten w := by
  rw [flatten_unpairs kvFlatten v ps hv hps, flatten_unpairs kvFlatten w qs hw hqs,
    msgOf_eq_last, levelOf_eq_last, msgOf_eq_last qs, levelOf_eq_last qs, hmsg, hlvl, hgen]

/-- Moving a pair with a reserved key across generic pairs changes no result of
`flatten`, a panic included. -/
theorem flatten_move_reserved (kvFlatten : List Value → List Value) (v w : List Value)
    (pre mid post : List (String × Value)) (k : String) (x : Value)
    (hk : k = "msg" ∨ k = "level" ∨ k = "lvl")
    (hmid : ∀ p ∈ mid, p.1 ≠ "msg" ∧ p.1 ≠ "level" ∧ p.1 ≠ "lvl")
    (hv : kvFlatten v = unpairs (pre ++ (k, x) :: (mid ++ post)))
    (hw : kvFlatten w = unpairs (pre ++ (mid ++ (k, x) :: post))) :
    flatten kvFlatten v = flatten kvFlatten w := by
  have hm : ∀ m, msgOf mid m = m := fun m => msgOf_of_no_key mid m fun p hp => (hmid p hp).1
  have hl : ∀ l, levelOf mid l = l := fun l =>
    levelOf_of_no_key mid l fun p hp => (hmid p hp).2
  have hg : generic mid = mid := by
    apply List.filter_eq_self.mpr
    intro p hp
    have := hmid p hp
    simp [this.1, this.2.1, this.2.2]
  have hgk : generic [(k, x)] = [] := by
    rcases hk with h | h | h <;> subst h <;> rfl
  have hgen : ∀ a b : List (String × Value), generic (a ++ b) = generic a ++ generic b :=
    fun a b => List.filter_append _ _
  have hconv : convertible (pre ++ (k, x) :: (mid ++ post)) ↔
      convertible (pre ++ (mid ++ (k, x) :: post)) := by
    simp only [convertible_append, convertible_cons]
    tauto
  simp only [flatten, hv, hw, flattenLoop_unpairs_cases, hconv]
  have e1 : msgOf (pre ++ (k, x) :: (mid ++ post)) "" =
      msgOf (pre ++ (mid ++ (k, x) :: post)) "" := by
    simp only [msgOf_append, msgOf, hm]
  have e2 : levelOf (pre ++ (k, x) :: (mid ++ post)) "" =
      levelOf (pre ++ (mid ++ (k, x) :: post)) "" := by
    simp only [levelOf_append, levelOf, hl]
  have e3 : generic (pre ++ (k, x) :: (mid ++ post)) =
      generic (pre ++ (mid ++ (k, x) :: post)) := by
    have c1 : (k, x) :: (mid ++ post) = [(k, x)] ++ (mid ++ post) := rfl
    have c2 : (k, x) :: post = [(k, x)] ++ post := rfl
    rw [c1, c2]
    simp only [hgen, hgk, List.nil_append]
  rw [e1, e2, e3]

/-- C18: the line depends only on the value of the last `"msg"` pair, the value of the
last `"level"`/`"lvl"` pair and the generic pairs in their order: on two flattened
inputs that agree on the three, and on which `toString` does not panic so that a line
is written, `stdLogger.Log` does the same.  So moving a pair with
the key `"msg"`, `"level"` or `"lvl"` across generic pairs changes nothing, and the
line begins with the level, then the message, wherever their pairs stand. -/
theorem Log_depends_only_on_classification {ε : Type} (enc : List Value → Except ε String)
    (kvFlatten : List Value → List Value) (logger : stdLogger) (v w : List Value)
    (ps qs : List (String × Value))
    (hv : kvFlatten v = unpairs ps) (hw : kvFlatten w = unpairs qs)
    (hps : convertible ps) (hqs : convertible qs)
    (hmsg : ((ps.filter fun p => decide (p.1 = "msg")).getLast?).map Prod.snd =
      ((qs.filter fun p => decide (p.1 = "msg")).getLast?).map Prod.snd)
    (hlvl : ((ps.filter fun p => decide (p.1 = "level" ∨ p.1 = "lvl")).getLast?).map Prod.snd =
      ((qs.filter fun p => decide (p.1 = "level" ∨ p.1 = "lvl")).getLast?).map Prod.snd)
    (hgen : generic ps = generic qs) :
    stdLogger.Log enc kvFlatten logger v = stdLogger.Log enc kvFlatten logger w ∧
      (∀ (pre mid post : List (String × Value)) (k : String) (x : Value)
          (v1 v2 : List Value),
        k = "msg" ∨ k = "level" ∨ k = "lvl" →
        (∀ p ∈ mid, p.1 ≠ "msg" ∧ p.1 ≠ "level" ∧ p.1 ≠ "lvl") →
        kvFlatten v1 = unpairs (pre ++ (k, x) :: (mid ++ post)) →
        kvFlatten v2 = unpairs (pre ++ (mid ++ (k, x) :: post)) →
        stdLogger.Log enc kvFlatten logger v1 = stdLogger.Log enc kvFlatten logger v2) ∧
      ∃ M L R rest, flatten kvFlatten v = some (M, L, R) ∧
        stdLogger.Log enc kvFlatten logger v = some
          { output := [(logger.calldepth, (if L ≠ "" then L else "") ++
              (if M ≠ "" then (if L ≠ "" then ": " else "") ++ M else "") ++ rest)],
            err := none } := by
  refine ⟨Log_eq_of_flatten_eq enc kvFlatten logger v w
      (flatten_eq_of_agree kvFlatten v w ps qs hv hw hps hqs hmsg hlvl hgen),
    fun pre mid post k x v1 v2 hk hmid h1 h2 =>
      Log_eq_of_flatten_eq enc kvFlatten logger v1 v2
        (flatten_move_reserved kvFlatten v1 v2 pre mid post k x hk hmid h1 h2), ?_⟩
  obtain ⟨line, hline, hlog⟩ := Log_of_unpairs enc kvFlatten logger v ps hv hps
  have hfl := flatten_unpairs kvFlatten v ps hv hps
  rcases encodeLoop_total enc (unpairs (generic ps))
      (writeHeader (levelOf ps "") (msgOf ps "")) (even_length_generic ps) with h | ⟨b, h⟩
  · refine ⟨_, _, _, "", hfl, ?_⟩
    rw [hlog]
    have : line = writeHeader (levelOf ps "") (msgOf ps "") := by
      rw [h] at hline
      exact (Option.some.inj hline).symm
    rw [this, writeHeader_eq, String.append_empty]
  · refine ⟨_, _, _, (if writeHeader (levelOf ps "") (msgOf ps "") ≠ "" then ": " else "") ++ b,
      hfl, ?_⟩
    rw [hlog]
    have : line = (if writeHeader (levelOf ps "") (msgOf ps "") ≠ ""
        then writeHeader (levelOf ps "") (msgOf ps "") ++ ": "
        else writeHeader (levelOf ps "") (msgOf ps "")) ++ b := by
      rw [h] at hline
      exact (Option.some.inj hline).symm
    rw [this, ← writeHeader_eq]
    by_cases hh : writeHeader (levelOf ps "") (msgOf ps "") = ""
    · simp [hh]
    · simp [hh, String.append_assoc]

/-- Witness of C18: the second call of `ExampleStdLogger`, and the same pairs with
`"lvl"` moved to the front; both write `error: the message: p1=1`. -/
theorem Log_depends_only_on_classification_witness :
    stdLogger.Log marshalKeyvals id (StdLogger 1)
        [Value.str "msg", Value.str "the message", Value.str "p1", Value.int 1,
          Value.str "lvl", Value.str "error"] =
      some { output := [(3, "error: the message: p1=1")], err := none } ∧
    stdLogger.Log marshalKeyvals id (StdLogger 1)
        [Value.str "lvl", Value.str "error", Value.str "msg", Value.str "the message",
          Value.str "p1", Value.int 1] =
      some { output := [(3, "error: the message: p1=1")], err := none } ∧
    stdLogger.Log marshalKeyvals id (StdLogger 1)
        [Value.str "msg", Value.str "the message", Value.str "p1", Value.int 1,
          Value.str "lvl", Value.str "error"] =
      stdLogger.Log marshalKeyvals id (StdLogger 1)
        [Value.str "lvl", Value.str "error", Value.str "msg", Value.str "the message",
          Value.str "p1", Value.int 1] :=
  ⟨by decide, by decide,
    (Log_depends_only_on_classification marshalKeyvals id (StdLogger 1)
      [Value.str "msg", Value.str "the message", Value.str "p1", Value.int 1,
        Value.str "lvl", Value.str "error"]
      [Value.str "lvl", Value.str "error", Value.str "msg", Value.str "the message",
        Value.str "p1", Value.int 1]
      [("msg", Value.str "the message"), ("p1", Value.int 1), ("lvl", Value.str "error")]
      [("lvl", Value.str "error"), ("msg", Value.str "the message"), ("p1", Value.int 1)]
      rfl rfl (by decide) (by decide) (by decide) (by decide) (by decide)).1⟩

end Structlog
